import Mathlib

/-!
Verification development for the SafeLens video-safety analysis core.

The Python modules `web/app/planning/llm_planner.py`,
`web/app/orchestration/segment_analyzer.py`,
`web/app/orchestration/segmentation.py` and
`web/app/orchestration/segmentation_config.py` are shallowly embedded below.
Python floats are modelled as rationals (the code only adds, subtracts,
divides and compares them), Python dicts with a fixed shape as structures,
and the external LLM provider / transcription / frame extraction
collaborators as explicit oracle values passed to each call.
-/

namespace SafeLens

/-! ## List helpers used by the embeddings

`sortUniq` models Python `sorted(set(l))`, `sortAsc` models `sorted(l)`,
`gapFilter` models the greedy left-to-right minimum-gap filter that both
`propose_points` and `merge_timestamps_with_planning` use.
-/

def insertSortedUniq (x : ℚ) : List ℚ → List ℚ
  | [] => [x]
  | y :: ys =>
    if x < y then x :: y :: ys
    else if x = y then y :: ys
    else y :: insertSortedUniq x ys

def sortUniq (l : List ℚ) : List ℚ := l.foldr insertSortedUniq []

def insertSorted (x : ℚ) : List ℚ → List ℚ
  | [] => [x]
  | y :: ys => if x ≤ y then x :: y :: ys else y :: insertSorted x ys

def sortAsc (l : List ℚ) : List ℚ := l.foldr insertSorted []

def gapFilterGo (gap : ℚ) : ℚ → List ℚ → List ℚ
  | _, [] => []
  | last, t :: ts =>
    if gap ≤ t - last then t :: gapFilterGo gap t ts else gapFilterGo gap last ts

def gapFilter (gap : ℚ) : List ℚ → List ℚ
  | [] => []
  | t :: ts => t :: gapFilterGo gap t ts

/-! ## `merge_timestamps_with_planning` (llm_planner.py, lines 423-478)

`max_frames_per_segment` and `remaining_points_budget` are optional ints;
Python treats a missing (or zero, via truthiness) `max_frames_per_segment`
and a missing `remaining_points_budget` as "no limit" (`float('inf')`).
Since `cfg.planner_max_extra_frames` is always a finite int, the overall
`max_extra = min(...)` is finite, so the infinities are eliminated by
`optMin` instead of being represented.
-/

def optMin (a : ℤ) : Option ℤ → ℤ
  | none => a
  | some b => min a b

/-- `max_frames_per_segment - len(periodic_timestamps) if max_frames_per_segment else inf`:
`None` and `0` are falsy, giving no limit. -/
def segmentExtraCap (periodicLen : ℕ) : Option ℤ → Option ℤ
  | none => none
  | some m => if m = 0 then none else some (m - (periodicLen : ℤ))

def maxExtraOf (plannerMaxExtraFrames : ℤ) (periodicLen : ℕ)
    (maxFramesPerSegment remainingPointsBudget : Option ℤ) : ℤ :=
  optMin (optMin plannerMaxExtraFrames (segmentExtraCap periodicLen maxFramesPerSegment))
    remainingPointsBudget

/-- `ts in planned_set and ts not in periodic_set` -/
def isExtraTS (periodic planned : List ℚ) (t : ℚ) : Bool :=
  decide (t ∈ planned) && !decide (t ∈ periodic)

/-- The main keep-loop: extras are kept while `extra_added < max_extra`,
every other timestamp is always kept. -/
def mergeExtrasGo (maxExtra : ℤ) (p : ℚ → Bool) : List ℚ → ℤ → List ℚ
  | [], _ => []
  | t :: ts, added =>
    if p t then
      if added < maxExtra then t :: mergeExtrasGo maxExtra p ts (added + 1)
      else mergeExtrasGo maxExtra p ts added
    else t :: mergeExtrasGo maxExtra p ts added

def mergeTimestampsWithPlanning (periodic planned : List ℚ) (plannerMinGapSec : ℚ)
    (plannerMaxExtraFrames : ℤ) (maxFramesPerSegment remainingPointsBudget : Option ℤ) :
    List ℚ :=
  let filtered := gapFilter plannerMinGapSec (sortUniq (periodic ++ planned))
  let maxExtra := maxExtraOf plannerMaxExtraFrames periodic.length
    maxFramesPerSegment remainingPointsBudget
  sortAsc (mergeExtrasGo maxExtra (isExtraTS periodic planned) filtered 0)

/-! ### Structural lemmas about the helpers -/

theorem mem_insertSortedUniq {z x : ℚ} : ∀ {l : List ℚ},
    z ∈ insertSortedUniq x l ↔ z = x ∨ z ∈ l := by
  intro l
  induction l with
  | nil => simp [insertSortedUniq]
  | cons y ys ih =>
    by_cases h1 : x < y
    · simp [insertSortedUniq, h1]
    · by_cases h2 : x = y
      · subst h2
        simp only [insertSortedUniq, h1, if_false, if_pos rfl]
        constructor
        · intro h; exact Or.inr h
        · rintro (rfl | h)
          · exact List.mem_cons_self _ _
          · exact h
      · simp only [insertSortedUniq, h1, h2, if_false, List.mem_cons, ih]
        tauto

theorem sorted_insertSortedUniq {x : ℚ} : ∀ {l : List ℚ},
    l.Sorted (· < ·) → (insertSortedUniq x l).Sorted (· < ·) := by
  intro l
  induction l with
  | nil => intro _; simp [insertSortedUniq]
  | cons y ys ih =>
    intro hs
    rcases List.sorted_cons.mp hs with ⟨hy, hys⟩
    by_cases h1 : x < y
    · simp only [insertSortedUniq, if_pos h1]
      exact List.sorted_cons.mpr ⟨by
        intro b hb
        rcases List.mem_cons.mp hb with rfl | hb
        · exact h1
        · exact lt_trans h1 (hy b hb), hs⟩
    · by_cases h2 : x = y
      · simpa [insertSortedUniq, h1, h2] using hs
      · simp only [insertSortedUniq, if_neg h1, if_neg h2]
        refine List.sorted_cons.mpr ⟨?_, ih hys⟩
        intro b hb
        rcases mem_insertSortedUniq.mp hb with rfl | hb
        · exact lt_of_le_of_ne (not_lt.mp h1) (Ne.symm h2)
        · exact hy b hb

theorem sorted_sortUniq (l : List ℚ) : (sortUniq l).Sorted (· < ·) := by
  induction l with
  | nil => simp [sortUniq]
  | cons x xs ih => exact sorted_insertSortedUniq ih

theorem mem_sortUniq {z : ℚ} : ∀ {l : List ℚ}, z ∈ sortUniq l ↔ z ∈ l := by
  intro l
  induction l with
  | nil => simp [sortUniq]
  | cons x xs ih =>
    simp only [sortUniq, List.foldr_cons, mem_insertSortedUniq, List.mem_cons]
    rw [show List.foldr insertSortedUniq [] xs = sortUniq xs from rfl] at *
    tauto

theorem gapFilterGo_sublist (gap : ℚ) : ∀ (l : List ℚ) (last : ℚ),
    (gapFilterGo gap last l).Sublist l := by
  intro l
  induction l with
  | nil => intro _; simp [gapFilterGo]
  | cons t ts ih =>
    intro last
    by_cases h : gap ≤ t - last
    · simpa [gapFilterGo, h] using List.Sublist.cons₂ t (ih t)
    · simpa [gapFilterGo, h] using List.Sublist.cons t (ih last)

theorem gapFilter_sublist (gap : ℚ) : ∀ (l : List ℚ), (gapFilter gap l).Sublist l := by
  intro l
  cases l with
  | nil => simp [gapFilter]
  | cons t ts => simpa [gapFilter] using List.Sublist.cons₂ t (gapFilterGo_sublist gap ts t)

theorem mergeExtrasGo_sublist (maxExtra : ℤ) (p : ℚ → Bool) : ∀ (l : List ℚ) (added : ℤ),
    (mergeExtrasGo maxExtra p l added).Sublist l := by
  intro l
  induction l with
  | nil => intro _; simp [mergeExtrasGo]
  | cons t ts ih =>
    intro added
    by_cases hp : p t
    · by_cases hlt : added < maxExtra
      · simpa [mergeExtrasGo, hp, hlt] using List.Sublist.cons₂ t (ih (added + 1))
      · simpa [mergeExtrasGo, hp, hlt] using List.Sublist.cons t (ih added)
    · simpa [mergeExtrasGo, hp] using List.Sublist.cons₂ t (ih added)

theorem sortAsc_of_sorted : ∀ {l : List ℚ}, l.Sorted (· ≤ ·) → sortAsc l = l := by
  intro l
  induction l with
  | nil => intro _; rfl
  | cons x xs ih =>
    intro hs
    rcases List.sorted_cons.mp hs with ⟨hx, hxs⟩
    show insertSorted x (sortAsc xs) = x :: xs
    rw [ih hxs]
    cases xs with
    | nil => rfl
    | cons y ys => simp [insertSorted, hx y (List.mem_cons_self y ys)]

/-- Extras in the kept list are exactly the first `(maxExtra - added)` extras
of the input, in order; non-extras are all kept. -/
theorem mergeExtrasGo_spec (maxExtra : ℤ) (p : ℚ → Bool) : ∀ (l : List ℚ) (added : ℤ),
    (mergeExtrasGo maxExtra p l added).filter p
        = (l.filter p).take (maxExtra - added).toNat ∧
    (mergeExtrasGo maxExtra p l added).filter (fun t => !p t)
        = l.filter (fun t => !p t) := by
  intro l
  induction l with
  | nil => intro added; simp [mergeExtrasGo]
  | cons t ts ih =>
    intro added
    by_cases hp : p t
    · by_cases hlt : added < maxExtra
      · have htk : (maxExtra - added).toNat = ((maxExtra - (added + 1)).toNat) + 1 := by
          omega
        constructor
        · simp only [mergeExtrasGo, hp, hlt, if_true, List.filter_cons, htk, List.take_succ_cons]
          simp [hp, (ih (added + 1)).1]
        · simp only [mergeExtrasGo, hp, hlt, if_true, List.filter_cons]
          simp [hp, (ih (added + 1)).2]
      · have htk : (maxExtra - added).toNat = 0 := by omega
        constructor
        · simp only [mergeExtrasGo, hp, hlt, if_true, if_false, List.filter_cons, htk,
            List.take_zero]
          have := (ih added).1
          rw [this, htk, List.take_zero]
        · simp only [mergeExtrasGo, hp, hlt, if_true, if_false, List.filter_cons]
          simp [hp, (ih added).2]
    · constructor
      · simp only [mergeExtrasGo, hp, if_false, List.filter_cons]
        simp [hp, (ih added).1]
      · simp only [mergeExtrasGo, hp, if_false, List.filter_cons]
        simp [hp, (ih added).2]

theorem sorted_merge_core (periodic planned : List ℚ) (gap : ℚ) (maxExtra : ℤ) :
    (mergeExtrasGo maxExtra (isExtraTS periodic planned)
      (gapFilter gap (sortUniq (periodic ++ planned))) 0).Sorted (· < ·) :=
  List.Pairwise.sublist
    (List.Sublist.trans
      (mergeExtrasGo_sublist _ _ _ _)
      (gapFilter_sublist gap _))
    (sorted_sortUniq (periodic ++ planned))

theorem mergeTimestampsWithPlanning_eq_core (periodic planned : List ℚ) (gap : ℚ)
    (mef : ℤ) (mf rb : Option ℤ) :
    mergeTimestampsWithPlanning periodic planned gap mef mf rb
      = mergeExtrasGo (maxExtraOf mef periodic.length mf rb) (isExtraTS periodic planned)
          (gapFilter gap (sortUniq (periodic ++ planned))) 0 := by
  show sortAsc _ = _
  exact sortAsc_of_sorted (sorted_merge_core periodic planned gap _).le_of_lt

/-- C1 (corrected): `merge_timestamps_with_planning` does NOT always retain every
periodic timestamp: a planned point accepted by the greedy minimum-gap filter can
evict a later periodic point.  With periodic `[5]`, planned `[0]` and
`planner_min_gap_sec = 8`, the output is `[0]` and the periodic timestamp `5`
is dropped, refuting the claim as stated. -/
theorem merge_timestamps_drops_periodic :
    (5 : ℚ) ∈ [(5 : ℚ)] ∧
    (5 : ℚ) ∉ mergeTimestampsWithPlanning [5] [0] 8 120 none none := by
  have h : mergeTimestampsWithPlanning [5] [0] 8 120 none none = [0] := by
    norm_num [mergeTimestampsWithPlanning, sortUniq, insertSortedUniq, gapFilter, gapFilterGo,
      maxExtraOf, optMin, segmentExtraCap, isExtraTS, mergeExtrasGo, sortAsc, insertSorted]
  rw [h]
  norm_num

/-- C1 (amended): every periodic timestamp that survives the global minimum-gap
filter is retained by `merge_timestamps_with_planning`; the planned-only
timestamps of the output are exactly the first
`min(planner_max_extra_frames, max_frames_per_segment - len(periodic), remaining_points_budget)`
planned-only survivors of the gap filter, in ascending time order (absent
parameters, and a zero `max_frames_per_segment`, impose no limit); and the output
is sorted ascending. -/
theorem merge_timestamps_planning_characterization
    (periodic planned : List ℚ) (gap : ℚ) (mef : ℤ) (mf rb : Option ℤ) :
    (∀ t, t ∈ gapFilter gap (sortUniq (periodic ++ planned)) → t ∈ periodic →
        t ∈ mergeTimestampsWithPlanning periodic planned gap mef mf rb) ∧
    (mergeTimestampsWithPlanning periodic planned gap mef mf rb).filter
        (isExtraTS periodic planned)
      = ((gapFilter gap (sortUniq (periodic ++ planned))).filter
          (isExtraTS periodic planned)).take (maxExtraOf mef periodic.length mf rb).toNat ∧
    (mergeTimestampsWithPlanning periodic planned gap mef mf rb).Sorted (· ≤ ·) := by
  rw [mergeTimestampsWithPlanning_eq_core]
  refine ⟨?_, ?_, (sorted_merge_core periodic planned gap _).le_of_lt⟩
  · intro t htF htP
    have hp : isExtraTS periodic planned t = false := by
      simp [isExtraTS, htP]
    have h2 := (mergeExtrasGo_spec (maxExtraOf mef periodic.length mf rb)
      (isExtraTS periodic planned) (gapFilter gap (sortUniq (periodic ++ planned))) 0).2
    have htFilter : t ∈ (gapFilter gap (sortUniq (periodic ++ planned))).filter
        (fun t => !isExtraTS periodic planned t) := by
      refine List.mem_filter.mpr ⟨htF, ?_⟩
      simp [hp]
    rw [← h2] at htFilter
    exact List.mem_of_mem_filter htFilter
  · have h1 := (mergeExtrasGo_spec (maxExtraOf mef periodic.length mf rb)
      (isExtraTS periodic planned) (gapFilter gap (sortUniq (periodic ++ planned))) 0).1
    simpa using h1

theorem merge_timestamps_planning_characterization_witness :
    (0 : ℚ) ∈ mergeTimestampsWithPlanning [0] [20] 8 120 none none :=
  (merge_timestamps_planning_characterization [0] [20] 8 120 none none).1 0
    (by norm_num [gapFilter, gapFilterGo, sortUniq, insertSortedUniq])
    (by norm_num)

/-! ## `normalize_non_overlap` (segmentation.py, lines 703-787)

A segment dict `\x7bstart, end\x7d` becomes the structure `Seg` (the field `end`
is a Lean keyword, so it is called `stop`).  `NormCfg` carries exactly the
`SegmentationConfig` fields that `normalize_non_overlap` reads;
`NormCfg.validOK` is the portion of `SegmentationConfig.validate` that
constrains those fields (`validate` imposes nothing on the tolerance, the
soft-max factor or the drop-tiny factor).
-/

structure Seg where
  start : ℚ
  stop : ℚ
deriving DecidableEq, Repr

structure NormCfg where
  minLenSec : ℚ
  maxLenSec : ℚ
  nonOverlapToleranceSec : ℚ
  maxLenSoftFactor : ℚ
  trimToTranscriptBoundaries : Bool
  dropTinyAfterTrimFactor : ℚ
deriving DecidableEq, Repr

def NormCfg.validOK (c : NormCfg) : Prop :=
  0 < c.minLenSec ∧ c.minLenSec < c.maxLenSec

instance (c : NormCfg) : Decidable c.validOK := by
  unfold NormCfg.validOK; infer_instance

/-- Stable sort by the key `(start, end)`, modelling `sorted(segments, key=...)`. -/
def insertSeg (x : Seg) : List Seg → List Seg
  | [] => [x]
  | y :: ys =>
    if x.start < y.start ∨ (x.start = y.start ∧ x.stop ≤ y.stop) then x :: y :: ys
    else y :: insertSeg x ys

def sortSegs (l : List Seg) : List Seg := l.foldr insertSeg []

/-- `snap_up_to_transcript`: smallest transcript boundary `≥ t` within tolerance. -/
def snapUpToTranscript (cfg : NormCfg) (bounds : List ℚ) (t : ℚ) : ℚ :=
  if cfg.trimToTranscriptBoundaries = false ∨ bounds = [] then t
  else
    match bounds.filter (fun b =>
        decide (t ≤ b) && decide (b - t ≤ cfg.nonOverlapToleranceSec)) with
    | [] => t
    | c :: cs => cs.foldl min c

/-- The main merge/trim pass.  `accRev` is the `final` list in reverse, so the
previously appended segment (whose `end` the code mutates when merging) is its
head. -/
def normLoopGo (cfg : NormCfg) (bounds : List ℚ) : List Seg → List Seg → List Seg
  | [], accRev => accRev.reverse
  | seg :: rest, accRev =>
    match accRev with
    | [] => normLoopGo cfg bounds rest [seg]
    | prev :: accTail =>
      let tol := cfg.nonOverlapToleranceSec
      let softMax := cfg.maxLenSec * cfg.maxLenSoftFactor
      if seg.start < prev.stop - tol then
        if max prev.stop seg.stop - prev.start ≤ softMax then
          normLoopGo cfg bounds rest (⟨prev.start, max prev.stop seg.stop⟩ :: accTail)
        else
          let newStart := snapUpToTranscript cfg bounds (max prev.stop seg.start)
          if seg.stop - newStart < cfg.minLenSec * cfg.dropTinyAfterTrimFactor then
            normLoopGo cfg bounds rest (prev :: accTail)
          else
            let e := if seg.stop - newStart > softMax then newStart + softMax else seg.stop
            normLoopGo cfg bounds rest (⟨newStart, e⟩ :: prev :: accTail)
      else
        let e := if seg.stop - seg.start > softMax then seg.start + softMax else seg.stop
        normLoopGo cfg bounds rest (⟨seg.start, e⟩ :: prev :: accTail)

/-- The start used by the final sweep: clamped up to `last_end` when it
overlaps the previous kept segment beyond tolerance. -/
def sweepStart (tol : ℚ) (lastEnd : Option ℚ) (st : ℚ) : ℚ :=
  match lastEnd with
  | none => st
  | some le => if st < le - tol then le else st

/-- The final sweep: clamp residual micro-overlaps, drop `end ≤ start` segments. -/
def sweepGo (tol : ℚ) : List Seg → Option ℚ → List Seg
  | [], _ => []
  | seg :: rest, lastEnd =>
    if seg.stop ≤ sweepStart tol lastEnd seg.start then sweepGo tol rest lastEnd
    else ⟨sweepStart tol lastEnd seg.start, seg.stop⟩ :: sweepGo tol rest (some seg.stop)

def normalizeNonOverlap (segments : List Seg) (bounds : List ℚ) (cfg : NormCfg) :
    List Seg :=
  if segments = [] then []
  else sweepGo cfg.nonOverlapToleranceSec
    (normLoopGo cfg bounds (sortSegs segments) []) none

/-- Everything the final sweep guarantees, regardless of its input list:
positive durations, the tolerance bound between consecutive segments, and the
link between the incoming `last_end` and the first kept segment. -/
theorem sweepStart_le (tol : ℚ) (htol : 0 ≤ tol) (le st : ℚ) :
    le ≤ sweepStart tol (some le) st + tol := by
  unfold sweepStart
  by_cases hcl : st < le - tol
  · simp only [if_pos hcl]; linarith
  · simp only [if_neg hcl]; linarith [not_lt.mp hcl]

theorem sweepGo_spec (tol : ℚ) (htol : 0 ≤ tol) : ∀ (l : List Seg) (lastEnd : Option ℚ),
    (∀ s ∈ sweepGo tol l lastEnd, s.start < s.stop) ∧
    List.Chain' (fun a b => a.stop ≤ b.start + tol) (sweepGo tol l lastEnd) ∧
    (∀ le, lastEnd = some le → ∀ h ∈ (sweepGo tol l lastEnd).head?, le ≤ h.start + tol) := by
  intro l
  induction l with
  | nil =>
    intro lastEnd
    refine ⟨by simp [sweepGo], by simp [sweepGo], ?_⟩
    intro le _ h hh
    simp [sweepGo] at hh
  | cons seg rest ih =>
    intro lastEnd
    by_cases hdrop : seg.stop ≤ sweepStart tol lastEnd seg.start
    · have hout : sweepGo tol (seg :: rest) lastEnd = sweepGo tol rest lastEnd := by
        simp only [sweepGo, if_pos hdrop]
      rw [hout]
      exact ih lastEnd
    · have hout : sweepGo tol (seg :: rest) lastEnd
          = ⟨sweepStart tol lastEnd seg.start, seg.stop⟩
            :: sweepGo tol rest (some seg.stop) := by
        simp only [sweepGo, if_neg hdrop]
      rw [hout]
      obtain ⟨ih1, ih2, ih3⟩ := ih (some seg.stop)
      refine ⟨?_, ?_, ?_⟩
      · intro x hx
        rcases List.mem_cons.mp hx with rfl | hx
        · exact lt_of_not_le hdrop
        · exact ih1 x hx
      · refine List.chain'_cons'.mpr ⟨?_, ih2⟩
        intro y hy
        exact ih3 seg.stop rfl y hy
      · intro le hle h hh
        simp only [List.head?_cons, Option.mem_def, Option.some.injEq] at hh
        subst hh
        subst hle
        exact sweepStart_le tol htol le seg.start

/-- Positivity of kept durations needs no assumption on the tolerance. -/
theorem sweepGo_pos (tol : ℚ) : ∀ (l : List Seg) (lastEnd : Option ℚ),
    ∀ s ∈ sweepGo tol l lastEnd, s.start < s.stop := by
  intro l
  induction l with
  | nil => intro lastEnd s h; simp [sweepGo] at h
  | cons seg rest ih =>
    intro lastEnd s hmem
    by_cases hdrop : seg.stop ≤ sweepStart tol lastEnd seg.start
    · rw [show sweepGo tol (seg :: rest) lastEnd = sweepGo tol rest lastEnd from by
        simp only [sweepGo, if_pos hdrop]] at hmem
      exact ih lastEnd s hmem
    · rw [show sweepGo tol (seg :: rest) lastEnd
          = ⟨sweepStart tol lastEnd seg.start, seg.stop⟩
            :: sweepGo tol rest (some seg.stop) from by
        simp only [sweepGo, if_neg hdrop]] at hmem
      rcases List.mem_cons.mp hmem with rfl | hmem
      · exact lt_of_not_le hdrop
      · exact ih (some seg.stop) s hmem

/-- C4: after normalization every emitted segment has `end > start`; the final
sweep discards any candidate with `end ≤ start`. -/
theorem normalize_non_overlap_positive_duration
    (segments : List Seg) (bounds : List ℚ) (cfg : NormCfg) (_hv : cfg.validOK) :
    ∀ s ∈ normalizeNonOverlap segments bounds cfg, s.start < s.stop := by
  intro s hmem
  unfold normalizeNonOverlap at hmem
  by_cases hns : segments = []
  · simp [hns] at hmem
  · rw [if_neg hns] at hmem
    exact sweepGo_pos cfg.nonOverlapToleranceSec _ none s hmem

theorem normalize_non_overlap_positive_duration_witness :
    (⟨0, 10⟩ : Seg).start < (⟨0, 10⟩ : Seg).stop :=
  normalize_non_overlap_positive_duration [⟨0, 10⟩] [] ⟨5, 16, 1/5, 23/20, true, 1/2⟩
    (by norm_num [NormCfg.validOK]) ⟨0, 10⟩
    (by norm_num [normalizeNonOverlap, sortSegs, insertSeg, normLoopGo, sweepGo, sweepStart])

theorem chain'_imp_of_mem {α : Type} {R S : α → α → Prop} {P : α → Prop} :
    ∀ {l : List α}, (∀ s ∈ l, P s) → List.Chain' R l →
      (∀ a b, P a → R a b → S a b) → List.Chain' S l := by
  intro l
  induction l with
  | nil => intro _ _ _; simp
  | cons x xs ih =>
    intro hP hC himp
    rcases List.chain'_cons'.mp hC with ⟨hhead, htail⟩
    refine List.chain'_cons'.mpr
      ⟨?_, ih (fun s hs => hP s (List.mem_cons_of_mem _ hs)) htail himp⟩
    intro y hy
    exact himp x y (hP x (List.mem_cons_self _ _)) (hhead y hy)

/-- C3 (corrected): sortedness by start time can FAIL.  With a valid
configuration (`min_len_sec = 0.2`, `max_len_sec = 8`) whose tolerance (1s)
exceeds a surviving segment's duration (0.1s), `normalize_non_overlap` emits
`[0,10], [10,10.1], [9.5,9.6]` — the last two segments are out of order.
(`SegmentationConfig.validate` places no constraint on the tolerance.) -/
theorem normalize_non_overlap_not_sorted :
    (⟨1/5, 8, 1, 5/4, false, 1/2⟩ : NormCfg).validOK ∧
    0 ≤ (⟨1/5, 8, 1, 5/4, false, 1/2⟩ : NormCfg).nonOverlapToleranceSec ∧
    ¬ (normalizeNonOverlap [⟨0, 10⟩, ⟨2, 101/10⟩, ⟨19/2, 48/5⟩] []
        ⟨1/5, 8, 1, 5/4, false, 1/2⟩).Sorted (fun a b => a.start ≤ b.start) := by
  refine ⟨by norm_num [NormCfg.validOK], by norm_num, ?_⟩
  have hout : normalizeNonOverlap [⟨0, 10⟩, ⟨2, 101/10⟩, ⟨19/2, 48/5⟩] []
      ⟨1/5, 8, 1, 5/4, false, 1/2⟩
      = [⟨0, 10⟩, ⟨10, 101/10⟩, ⟨19/2, 48/5⟩] := by
    unfold normalizeNonOverlap
    rw [if_neg (by simp)]
    norm_num [sortSegs, insertSeg, normLoopGo, sweepGo, sweepStart, snapUpToTranscript]
  rw [hout]
  intro hsorted
  have := (List.sorted_cons.mp (List.sorted_cons.mp hsorted).2).1 ⟨19/2, 48/5⟩
    (List.mem_cons_self _ _)
  norm_num at this

/-- C3 (amended): for every valid configuration with non-negative tolerance the
output of `normalize_non_overlap` satisfies
`segments[i].end ≤ segments[i+1].start + tolerance` for every adjacent pair, and
is sorted by start time up to the tolerance
(`segments[i].start - tolerance < segments[i+1].start`); full sortedness by
start does not hold in general (see the counterexample). -/
theorem normalize_non_overlap_tolerance_chain
    (segments : List Seg) (bounds : List ℚ) (cfg : NormCfg)
    (_hv : cfg.validOK) (htol : 0 ≤ cfg.nonOverlapToleranceSec) :
    List.Chain' (fun a b => a.stop ≤ b.start + cfg.nonOverlapToleranceSec)
      (normalizeNonOverlap segments bounds cfg) ∧
    List.Chain' (fun a b => a.start - cfg.nonOverlapToleranceSec < b.start)
      (normalizeNonOverlap segments bounds cfg) := by
  have hpos : ∀ s ∈ normalizeNonOverlap segments bounds cfg, s.start < s.stop := by
    intro s hmem
    unfold normalizeNonOverlap at hmem
    by_cases hns : segments = []
    · simp [hns] at hmem
    · rw [if_neg hns] at hmem
      exact sweepGo_pos cfg.nonOverlapToleranceSec _ none s hmem
  have hchain : List.Chain' (fun a b => a.stop ≤ b.start + cfg.nonOverlapToleranceSec)
      (normalizeNonOverlap segments bounds cfg) := by
    unfold normalizeNonOverlap
    by_cases hns : segments = []
    · simp [hns]
    · rw [if_neg hns]
      exact (sweepGo_spec cfg.nonOverlapToleranceSec htol _ none).2.1
  refine ⟨hchain, ?_⟩
  refine chain'_imp_of_mem hpos hchain ?_
  intro a b hP hR
  linarith

theorem normalize_non_overlap_tolerance_chain_witness :
    List.Chain' (fun a b => a.stop ≤ b.start + (1/5 : ℚ))
      (normalizeNonOverlap [⟨0, 5⟩, ⟨6, 9⟩] [] ⟨5, 16, 1/5, 23/20, true, 1/2⟩) ∧
    List.Chain' (fun a b => a.start - (1/5 : ℚ) < b.start)
      (normalizeNonOverlap [⟨0, 5⟩, ⟨6, 9⟩] [] ⟨5, 16, 1/5, 23/20, true, 1/2⟩) :=
  normalize_non_overlap_tolerance_chain [⟨0, 5⟩, ⟨6, 9⟩] [] ⟨5, 16, 1/5, 23/20, true, 1/2⟩
    (by norm_num [NormCfg.validOK]) (by norm_num)

/-! ## Keyword suspicion scoring (segment_analyzer.py, lines 87-169)

`str.lower()` is modelled character-wise by `strLower`; `keyword in text_lower`
by list-infix containment of the character lists.  `SUSPICION_KEYWORDS` is a
Python dict iterated in insertion order, so it becomes an association list in
source order.  Reason strings follow the code but drop the quote characters
around the interpolated keyword. -/

def strLower (s : String) : String := ⟨s.data.map Char.toLower⟩

def containsSub (hay needle : String) : Bool := decide (needle.data <:+: hay.data)

def hateKeywords : List String :=
  ["nazi", "hitler", "swastika", "kkk", "white power", "n-word", "jew", "kike",
   "spic", "chink", "towelhead", "raghead", "faggot", "tranny", "retard"]

def selfHarmKeywords : List String :=
  ["suicide", "kill myself", "end it all", "razor", "cutting", "self-harm",
   "overdose", "pills", "jump off", "hang myself"]

def nudityKeywords : List String :=
  ["naked", "nude", "penis", "vagina", "boobs", "tits", "ass", "porn",
   "sex tape", "masturbat", "orgasm", "horny"]

def drugsKeywords : List String :=
  ["cocaine", "heroin", "meth", "crack", "weed", "marijuana", "molly",
   "ecstasy", "lsd", "acid", "shrooms", "xanax", "oxy", "fentanyl"]

def violenceKeywords : List String :=
  ["kill", "murder", "shoot", "stab", "beat up", "fight", "blood",
   "weapon", "gun", "knife", "bomb", "explosive", "torture"]

def abuseKeywords : List String :=
  ["molest", "rape", "assault", "abuse", "victim", "predator",
   "kidnap", "traffick", "exploit", "coerce"]

def suspicionKeywords : List (String × List String) :=
  [("hate", hateKeywords), ("self_harm", selfHarmKeywords), ("nudity", nudityKeywords),
   ("drugs", drugsKeywords), ("violence", violenceKeywords), ("abuse", abuseKeywords)]

/-- First `(category, keyword)` whose keyword occurs in the lowered text. -/
def findKeyword (textLower : String) : List (String × List String) →
    Option (String × String)
  | [] => none
  | (cat, kws) :: rest =>
    match kws.find? (fun kw => containsSub textLower kw) with
    | some kw => some (cat, kw)
    | none => findKeyword textLower rest

/-- Result dict of `score_suspicion` / `suspicion_score`: one structure with
optional fields standing for the optional dict keys (`_cache_hit` is `none`
when the key is absent, which matters because the call sites use different
`.get` defaults for it). -/
structure SuspicionResult where
  suspicious : Bool
  confidence : ℚ
  method : String
  category : Option String := none
  keyword : Option String := none
  reason : String := ""
  cacheHit : Option Bool := none
  err : Bool := false
  latencyMs : Option ℚ := none
deriving DecidableEq, Repr

/-- `score_suspicion(text, mode="keywords")`. -/
def scoreSuspicionKeywords (segmentText : String) : SuspicionResult :=
  if segmentText = "" then
    { suspicious := false, confidence := 0, method := "keywords",
      reason := "No text available" }
  else
    match findKeyword (strLower segmentText) suspicionKeywords with
    | some (cat, kw) =>
      { suspicious := true, confidence := 0.8, method := "keywords",
        category := some cat, keyword := some kw,
        reason := "Keyword " ++ kw ++ " found in " ++ cat }
    | none =>
      { suspicious := false, confidence := 0.9, method := "keywords",
        reason := "No suspicious keywords found" }

theorem findKeyword_cons_none (tl cat : String) (kws : List String)
    (rest : List (String × List String))
    (h : ∀ kw ∈ kws, containsSub tl kw = false) :
    findKeyword tl ((cat, kws) :: rest) = findKeyword tl rest := by
  have hnone : kws.find? (fun kw => containsSub tl kw) = none :=
    List.find?_eq_none.mpr (fun kw hkw => by simp [h kw hkw])
  simp only [findKeyword, hnone]

theorem findKeyword_isSome_of_match (tl : String) :
    ∀ (table : List (String × List String)) (cat : String) (kws : List String) (kw : String),
    (cat, kws) ∈ table → kw ∈ kws → containsSub tl kw = true →
    ∃ p, findKeyword tl table = some p := by
  intro table
  induction table with
  | nil => intro _ _ _ h; simp at h
  | cons hd rest ih =>
    intro cat kws kw hmem hkw hc
    obtain ⟨c0, ks0⟩ := hd
    cases hfind : ks0.find? (fun k => containsSub tl k) with
    | some k => exact ⟨(c0, k), by simp only [findKeyword, hfind]⟩
    | none =>
      rcases List.mem_cons.mp hmem with heq | hmem2
      · cases heq
        exact absurd hc (by simpa using List.find?_eq_none.mp hfind kw hkw)
      · obtain ⟨p, hp⟩ := ih cat kws kw hmem2 hkw hc
        exact ⟨p, by simp only [findKeyword, hfind, hp]⟩

/-- The keywords of the categories scanned before "drugs". -/
def preDrugsKeywords : List String := hateKeywords ++ selfHarmKeywords ++ nudityKeywords

/-- C5 (corrected): if the lowered text contains the substring "heroin", the
keywords scorer always returns `suspicious = true` with confidence `0.8`; the
category is `"drugs"` provided no keyword of an earlier-scanned category
(hate, self_harm, nudity) also occurs — the first matching category wins. -/
theorem score_suspicion_heroin (text : String)
    (hcontains : "heroin".data <:+: (strLower text).data) :
    ((scoreSuspicionKeywords text).suspicious = true ∧
     (scoreSuspicionKeywords text).confidence = 0.8) ∧
    ((∀ kw ∈ preDrugsKeywords, containsSub (strLower text) kw = false) →
      (scoreSuspicionKeywords text).category = some "drugs") := by
  have htext : text ≠ "" := by
    intro h
    subst h
    exact absurd hcontains (by decide)
  have hc : containsSub (strLower text) "heroin" = true := by
    simp only [containsSub, decide_eq_true_eq]
    exact hcontains
  constructor
  · obtain ⟨p, hp⟩ := findKeyword_isSome_of_match (strLower text) suspicionKeywords
      "drugs" drugsKeywords "heroin"
      (by simp [suspicionKeywords]) (by simp [drugsKeywords]) hc
    obtain ⟨cat, kw⟩ := p
    simp [scoreSuspicionKeywords, if_neg htext, hp]
  · intro hpre
    have h1 : ∀ kw ∈ hateKeywords, containsSub (strLower text) kw = false := by
      intro kw hkw
      exact hpre kw (by simp [preDrugsKeywords, hkw])
    have h2 : ∀ kw ∈ selfHarmKeywords, containsSub (strLower text) kw = false := by
      intro kw hkw
      exact hpre kw (by simp [preDrugsKeywords, hkw])
    have h3 : ∀ kw ∈ nudityKeywords, containsSub (strLower text) kw = false := by
      intro kw hkw
      exact hpre kw (by simp [preDrugsKeywords, hkw])
    have hdr : ∃ k, drugsKeywords.find? (fun kw => containsSub (strLower text) kw)
        = some k := by
      apply Option.isSome_iff_exists.mp
      apply List.find?_isSome.mpr
      exact ⟨"heroin", by simp [drugsKeywords], hc⟩
    obtain ⟨k, hk⟩ := hdr
    have hfk : findKeyword (strLower text) suspicionKeywords = some ("drugs", k) := by
      simp only [suspicionKeywords]
      rw [findKeyword_cons_none _ _ _ _ h1, findKeyword_cons_none _ _ _ _ h2,
        findKeyword_cons_none _ _ _ _ h3]
      simp only [findKeyword, hk]
    simp [scoreSuspicionKeywords, if_neg htext, hfk]

theorem score_suspicion_heroin_witness :
    ((scoreSuspicionKeywords "heroin").suspicious = true ∧
     (scoreSuspicionKeywords "heroin").confidence = 0.8) ∧
    (scoreSuspicionKeywords "heroin").category = some "drugs" := by
  have h := score_suspicion_heroin "heroin" (by decide)
  exact ⟨h.1, h.2 (by decide)⟩

/-- C5 counterexample to "regardless of the surrounding text": the text
"nazi heroin" contains "heroin" but is categorized as "hate", not "drugs",
because the hate category is scanned first. -/
theorem score_suspicion_heroin_counterexample :
    ("heroin".data <:+: "nazi heroin".data) ∧
    (scoreSuspicionKeywords "nazi heroin").category = some "hate" ∧
    (scoreSuspicionKeywords "nazi heroin").category ≠ some "drugs" := by
  decide

/-! ## The planner cache (llm_planner.py, lines 22-146)

`_cache` and `_cache_timestamps` are two module-level dicts with string keys;
they become two association lists (most recent binding first).  A key's kind
("suspicion" or "points") is part of the key, so the single heterogeneous dict
is modelled with a sum of the two stored dict shapes.
`hashlib.sha1(text.encode()).hexdigest()[:10]` stands in as `sha1Hex10`, an
abstract deterministic function of the text (the development relies only on
its determinism). -/

inductive CachedVal
  | susp (suspicious : Bool) (confidence : ℚ) (category : Option String)
      (reason : String) (latencyMs : ℚ)
  | pts (points : List ℚ) (reason : String) (latencyMs : ℚ) (cacheHitFlag : Bool)
deriving DecidableEq, Repr

structure CacheState where
  cache : List (String × CachedVal)
  times : List (String × ℚ)
deriving DecidableEq, Repr

def emptyCache : CacheState := ⟨[], []⟩

def eraseAssoc {α : Type} (key : String) (l : List (String × α)) : List (String × α) :=
  l.filter (fun p => !(p.1 == key))

def setAssoc {α : Type} (key : String) (v : α) (l : List (String × α)) :
    List (String × α) :=
  (key, v) :: eraseAssoc key l

def sha1Hex10 (text : String) : String := text

def cacheKey (videoId : String) (segIndex : ℕ) (textHash : String) (kind : String) :
    String :=
  videoId ++ ":" ++ toString segIndex ++ ":" ++ textHash ++ ":" ++ kind

/-- `_get_cached_result`: returns the entry if present and fresh; removes
malformed or expired entries as a side effect. -/
def getCachedResult (key : String) (ttlSec : ℚ) (now : ℚ) (st : CacheState) :
    Option CachedVal × CacheState :=
  match st.cache.lookup key with
  | none => (none, st)
  | some v =>
    match st.times.lookup key with
    | none => (none, ⟨eraseAssoc key st.cache, st.times⟩)
    | some t =>
      if ttlSec < now - t then (none, ⟨eraseAssoc key st.cache, eraseAssoc key st.times⟩)
      else (some v, st)

/-- `_set_cached_result`. -/
def setCachedResult (key : String) (v : CachedVal) (now : ℚ) (st : CacheState) :
    CacheState :=
  ⟨setAssoc key v st.cache, setAssoc key now st.times⟩

/-- The `LLMPlannerConfig` fields the embedded functions read.  `validate()`
forces the three budget fields to be non-negative ints, hence `ℕ`. -/
structure PlannerCfg where
  suspicionLLMConfThreshold : ℚ := 0.6
  suspicionLLMMaxSegments : ℕ := 50
  suspicionLLMMinTextChars : ℕ := 80
  suspicionLLMCacheTTLSec : ℚ := 86400
  plannerLLMMaxPoints : ℕ := 5
  plannerMinGapSec : ℚ := 8
  plannerMaxExtraFrames : ℕ := 120
deriving DecidableEq, Repr

/-! ## `suspicion_score` (llm_planner.py, lines 149-284)

The provider call `llm.invoke(...)` is an oracle value: a structured reply, a
dict with an "error" key, a non-dict value, or a raised exception (which also
covers an unparseable `confidence` field, caught by the same handler).  The
`llm is None` branch is not modelled: `analyze_segments` always passes its
per-video `SafetyLLM`.  In an `ok` reply the `category` field is already
coerced as the code does (`None` for a truthy non-string). -/

inductive SuspReply
  | exn (msg : String)
  | nonDict (msgRepr : String)
  | errDict (msg : String)
  | ok (suspicious : Bool) (confidence : ℚ) (category : Option String)
      (reason : String) (latencyMs : ℚ)
deriving DecidableEq, Repr

def SuspReply.isError : SuspReply → Bool
  | .ok .. => false
  | _ => true

/-- `suspicion_score(text, cfg, video_id, seg_index, llm)`; the `method` field
is left empty here because the dict gets its "method" key only from the caller
`score_suspicion`.  Returns (result, new cache, provider-was-invoked). -/
def suspicionScoreLLM (text : String) (cfg : PlannerCfg) (videoId : String)
    (segIndex : ℕ) (st : CacheState) (now : ℚ) (reply : SuspReply) :
    SuspicionResult × CacheState × Bool :=
  if text = "" ∨ text.trim.length < cfg.suspicionLLMMinTextChars then
    ({ suspicious := false, confidence := 0, method := "",
       reason := "Text too short for analysis" }, st, false)
  else
    match getCachedResult (cacheKey videoId segIndex (sha1Hex10 text) "suspicion")
        cfg.suspicionLLMCacheTTLSec now st with
    | (some (.susp s c cat rsn lat), st1) =>
      ({ suspicious := s, confidence := c, method := "", category := cat, reason := rsn,
         latencyMs := some lat, cacheHit := some true }, st1, false)
    | (some (.pts _ _ _ _), st1) =>
      -- unreachable: a "suspicion" key never maps to a points entry, since the
      -- kind is part of the key
      ({ suspicious := false, confidence := 0, method := "", err := true,
         reason := "malformed cache entry" }, st1, false)
    | (none, st1) =>
      match reply with
      | .ok s c cat rsn lat =>
        ({ suspicious := s, confidence := max 0 (min 1 c), method := "",
           category := cat, reason := rsn, latencyMs := some lat,
           cacheHit := some false },
         setCachedResult (cacheKey videoId segIndex (sha1Hex10 text) "suspicion")
           (.susp s (max 0 (min 1 c)) cat rsn lat) now st1,
         true)
      | .errDict msg =>
        ({ suspicious := false, confidence := 0, method := "",
           reason := "LLM error: " ++ msg, err := true }, st1, true)
      | .nonDict r =>
        ({ suspicious := false, confidence := 0, method := "",
           reason := "LLM error: " ++ r, err := true }, st1, true)
      | .exn msg =>
        ({ suspicious := false, confidence := 0, method := "",
           reason := "Analysis failed: " ++ msg, err := true }, st1, true)

/-- The "llm" branch of `score_suspicion` (segment_analyzer.py, lines 171-198):
keyword fallback on `_error`, else tag `method = "llm"` and let the threshold
override the suspicious flag. -/
def scoreSuspicionLLMBranch (cfg : PlannerCfg) (text : String) (r : SuspicionResult) :
    SuspicionResult :=
  if r.err then scoreSuspicionKeywords text
  else if cfg.suspicionLLMConfThreshold ≤ r.confidence
  then { r with method := "llm", suspicious := true }
  else { r with method := "llm" }

/-- `score_suspicion` (segment_analyzer.py, lines 115-202): mode dispatch. -/
def scoreSuspicion (text : String) (mode : String) (cfg : PlannerCfg) (videoId : String)
    (segIndex : ℕ) (st : CacheState) (now : ℚ) (reply : SuspReply) :
    SuspicionResult × CacheState × Bool :=
  if mode = "off" then
    ({ suspicious := false, confidence := 0, method := "off",
       reason := "Suspicion scoring disabled" }, st, false)
  else if mode = "keywords" then
    (scoreSuspicionKeywords text, st, false)
  else if mode = "llm" then
    (scoreSuspicionLLMBranch cfg text
       (suspicionScoreLLM text cfg videoId segIndex st now reply).1,
     (suspicionScoreLLM text cfg videoId segIndex st now reply).2.1,
     (suspicionScoreLLM text cfg videoId segIndex st now reply).2.2)
  else (scoreSuspicionKeywords text, st, false)

/-! ## `propose_points` (llm_planner.py, lines 287-420) -/

inductive PlanReply
  | exn (msg : String)
  | nonDict (msgRepr : String)
  | errDict (msg : String)
  | ok (rawPoints : List (Option ℚ)) (reason : String) (latencyMs : ℚ)
deriving DecidableEq, Repr

def PlanReply.isError : PlanReply → Bool
  | .ok .. => false
  | _ => true

/-- `propose_points`.  A raw point is `none` when `float(point)` raises (that
element is skipped); a non-list "points" field is the coerced `ok []`.  When
`planner_min_gap_sec = 0`, `int(duration / 0.0)` raises `ZeroDivisionError`
before the provider is invoked, and the handler returns `[]`.  A cache hit
writes `_cache_hit = True` into the stored dict in place. -/
def proposePoints (segmentText : String) (segStart segEnd : ℚ) (cfg : PlannerCfg)
    (videoId : String) (segIndex : ℕ) (st : CacheState) (now : ℚ) (reply : PlanReply) :
    List ℚ × CacheState × Bool :=
  if segmentText = "" ∨ segmentText.trim.length < cfg.suspicionLLMMinTextChars then
    ([], st, false)
  else if segEnd - segStart < cfg.plannerMinGapSec then
    ([], st, false)
  else
    match getCachedResult (cacheKey videoId segIndex (sha1Hex10 segmentText) "points")
        cfg.suspicionLLMCacheTTLSec now st with
    | (some (.pts p rsn lat _), st1) =>
      (p, ⟨setAssoc (cacheKey videoId segIndex (sha1Hex10 segmentText) "points")
            (.pts p rsn lat true) st1.cache, st1.times⟩, false)
    | (some (.susp _ _ _ _ _), st1) =>
      -- unreachable for a "points" key; `cached.get("points", [])` yields []
      ([], st1, false)
    | (none, st1) =>
      if cfg.plannerMinGapSec = 0 then ([], st1, false)
      else
        match reply with
        | .ok rawPoints rsn lat =>
          let duration := segEnd - segStart
          let maxPts : ℕ := min 3 (max 1 (⌊duration / cfg.plannerMinGapSec⌋).toNat)
          let absolute := rawPoints.filterMap (fun o => match o with
            | some q => if 0 ≤ q ∧ q ≤ duration then some (segStart + q) else none
            | none => none)
          let finalPts := (gapFilter cfg.plannerMinGapSec (sortAsc absolute)).take maxPts
          (finalPts,
           setCachedResult (cacheKey videoId segIndex (sha1Hex10 segmentText) "points")
             (.pts finalPts rsn lat false) now st1,
           true)
        | .errDict _ => ([], st1, true)
        | .nonDict _ => ([], st1, true)
        | .exn _ => ([], st1, true)

/-! ### Lemmas for the planner layer -/

theorem mem_insertSorted {z x : ℚ} : ∀ {l : List ℚ},
    z ∈ insertSorted x l ↔ z = x ∨ z ∈ l := by
  intro l
  induction l with
  | nil => simp [insertSorted]
  | cons y ys ih =>
    by_cases h : x ≤ y
    · simp [insertSorted, h]
    · simp only [insertSorted, if_neg h, List.mem_cons, ih]
      tauto

theorem sorted_insertSorted {x : ℚ} : ∀ {l : List ℚ},
    l.Sorted (· ≤ ·) → (insertSorted x l).Sorted (· ≤ ·) := by
  intro l
  induction l with
  | nil => intro _; simp [insertSorted]
  | cons y ys ih =>
    intro hs
    rcases List.sorted_cons.mp hs with ⟨hy, hys⟩
    by_cases h : x ≤ y
    · simp only [insertSorted, if_pos h]
      refine List.sorted_cons.mpr ⟨?_, hs⟩
      intro b hb
      rcases List.mem_cons.mp hb with rfl | hb
      · exact h
      · exact le_trans h (hy b hb)
    · simp only [insertSorted, if_neg h]
      refine List.sorted_cons.mpr ⟨?_, ih hys⟩
      intro b hb
      rcases mem_insertSorted.mp hb with rfl | hb
      · exact le_of_not_le h
      · exact hy b hb

theorem sorted_sortAsc (l : List ℚ) : (sortAsc l).Sorted (· ≤ ·) := by
  induction l with
  | nil => simp [sortAsc]
  | cons x xs ih => exact sorted_insertSorted ih

theorem mem_sortAsc {z : ℚ} : ∀ {l : List ℚ}, z ∈ sortAsc l ↔ z ∈ l := by
  intro l
  induction l with
  | nil => simp [sortAsc]
  | cons x xs ih =>
    show z ∈ insertSorted x (sortAsc xs) ↔ _
    simp only [mem_insertSorted, List.mem_cons, ih]

theorem gapFilterGo_chain (gap : ℚ) : ∀ (l : List ℚ) (last : ℚ), l.Sorted (· ≤ ·) →
    List.Chain' (fun a b => a + gap ≤ b) (gapFilterGo gap last l) ∧
    (∀ h ∈ (gapFilterGo gap last l).head?, last + gap ≤ h) := by
  intro l
  induction l with
  | nil => intro last _; refine ⟨by simp [gapFilterGo], ?_⟩; intro h hh; simp [gapFilterGo] at hh
  | cons t ts ih =>
    intro last hs
    rcases List.sorted_cons.mp hs with ⟨_, hts⟩
    by_cases hkeep : gap ≤ t - last
    · have hout : gapFilterGo gap last (t :: ts) = t :: gapFilterGo gap t ts := by
        simp only [gapFilterGo, if_pos hkeep]
      obtain ⟨ihc, ihh⟩ := ih t hts
      rw [hout]
      refine ⟨List.chain'_cons'.mpr ⟨?_, ihc⟩, ?_⟩
      · intro y hy
        exact ihh y hy
      · intro h hh
        simp only [List.head?_cons, Option.mem_def, Option.some.injEq] at hh
        subst hh
        linarith
    · have hout : gapFilterGo gap last (t :: ts) = gapFilterGo gap last ts := by
        simp only [gapFilterGo, if_neg hkeep]
      rw [hout]
      exact ih last hts

theorem gapFilter_chain (gap : ℚ) (l : List ℚ) (hs : l.Sorted (· ≤ ·)) :
    List.Chain' (fun a b => a + gap ≤ b) (gapFilter gap l) := by
  cases l with
  | nil => simp [gapFilter]
  | cons t ts =>
    rcases List.sorted_cons.mp hs with ⟨_, hts⟩
    obtain ⟨ihc, ihh⟩ := gapFilterGo_chain gap ts t hts
    exact List.chain'_cons'.mpr ⟨fun y hy => by linarith [ihh y hy], ihc⟩

theorem lookup_setAssoc_self {α : Type} (key : String) (v : α) (l : List (String × α)) :
    (setAssoc key v l).lookup key = some v := by
  simp [setAssoc, List.lookup]

theorem lookup_eraseAssoc_self {α : Type} (key : String) :
    ∀ (l : List (String × α)), (eraseAssoc key l).lookup key = none := by
  intro l
  induction l with
  | nil => rfl
  | cons p rest ih =>
    obtain ⟨k0, v0⟩ := p
    by_cases h : k0 = key
    · subst h
      simpa [eraseAssoc] using ih
    · have h1 : (k0 == key) = false := beq_eq_false_iff_ne.mpr h
      have h2 : (key == k0) = false := beq_eq_false_iff_ne.mpr (Ne.symm h)
      rw [show eraseAssoc key ((k0, v0) :: rest) = (k0, v0) :: eraseAssoc key rest from by
        simp [eraseAssoc, List.filter_cons, h1]]
      rw [List.lookup_cons]
      simp only [h2]
      exact ih

theorem getCachedResult_after_set (key : String) (v : CachedVal) (ttl now0 now1 : ℚ)
    (st : CacheState) (h : now1 - now0 ≤ ttl) :
    getCachedResult key ttl now1 (setCachedResult key v now0 st)
      = (some v, setCachedResult key v now0 st) := by
  unfold getCachedResult setCachedResult
  rw [show (setAssoc key v st.cache).lookup key = some v from lookup_setAssoc_self ..]
  rw [show (setAssoc key now0 st.times).lookup key = some now0 from lookup_setAssoc_self ..]
  simp only [if_neg (not_lt.mpr h)]

/-- After a miss, the (possibly cleaned) cache has no binding for the key. -/
theorem getCachedResult_miss_no_key (key : String) (ttl now : ℚ) (st : CacheState)
    (hmiss : (getCachedResult key ttl now st).1 = none) :
    ((getCachedResult key ttl now st).2).cache.lookup key = none := by
  unfold getCachedResult at hmiss ⊢
  cases hc : st.cache.lookup key with
  | none => simp [hc]
  | some v =>
    cases ht : st.times.lookup key with
    | none => simp [hc, ht, lookup_eraseAssoc_self]
    | some t =>
      by_cases hexp : ttl < now - t
      · simp [hc, ht, hexp, lookup_eraseAssoc_self]
      · simp [hc, ht, hexp] at hmiss

/-- `min(3, max(1, int(duration/gap)))` is below the spec's real-valued bound
`min(3, max(1, duration/gap))`. -/
theorem maxPts_cast_le (x : ℚ) :
    ((min 3 (max 1 (⌊x⌋).toNat) : ℕ) : ℚ) ≤ min 3 (max 1 x) := by
  rcases le_or_lt 1 x with hx | hx
  · have h1 : (1 : ℤ) ≤ ⌊x⌋ := Int.le_floor.mpr (by exact_mod_cast hx)
    refine le_min ?_ ?_
    · exact_mod_cast le_trans (Nat.cast_le.mpr (min_le_left _ _)) (by norm_num)
    · refine le_trans ?_ (le_max_right 1 x)
      have h2 : ((⌊x⌋.toNat : ℕ) : ℚ) ≤ x := by
        rw [show ((⌊x⌋.toNat : ℕ) : ℚ) = ((⌊x⌋ : ℤ) : ℚ) by
          exact_mod_cast congrArg (fun n : ℤ => (n : ℚ)) (Int.toNat_of_nonneg (by omega))]
        exact Int.floor_le x
      calc ((min 3 (max 1 (⌊x⌋).toNat) : ℕ) : ℚ)
          ≤ ((max 1 (⌊x⌋).toNat : ℕ) : ℚ) := by exact_mod_cast min_le_right _ _
        _ = ((⌊x⌋.toNat : ℕ) : ℚ) := by
            congr 1
            exact max_eq_right (by omega)
        _ ≤ x := h2
  · have h1 : ⌊x⌋ < 1 := Int.floor_lt.mpr (by exact_mod_cast hx)
    have h2 : (⌊x⌋).toNat = 0 := Int.toNat_eq_zero.mpr (by omega)
    rw [h2, show max 1 x = 1 from max_eq_left (le_of_lt hx)]
    norm_num

theorem zero_le_points_cap (x : ℚ) : (0 : ℚ) ≤ min 3 (max 1 x) :=
  le_min (by norm_num) (le_trans zero_le_one (le_max_left 1 x))

/-- C6: on the provider path (cache miss), every timestamp returned by
`propose_points` lies in `[seg_start, seg_end]`, consecutive timestamps are at
least `planner_min_gap_sec` apart, and the count is at most
`min(3, max(1, duration/planner_min_gap_sec))`.  (A cache hit replays the
stored output of an earlier call with the same key.) -/
theorem propose_points_bounds
    (text : String) (segStart segEnd : ℚ) (cfg : PlannerCfg) (vid : String) (idx : ℕ)
    (st : CacheState) (now : ℚ) (reply : PlanReply)
    (hmiss : (getCachedResult (cacheKey vid idx (sha1Hex10 text) "points")
        cfg.suspicionLLMCacheTTLSec now st).1 = none) :
    (∀ ts ∈ (proposePoints text segStart segEnd cfg vid idx st now reply).1,
        segStart ≤ ts ∧ ts ≤ segEnd) ∧
    List.Chain' (fun a b => a + cfg.plannerMinGapSec ≤ b)
      (proposePoints text segStart segEnd cfg vid idx st now reply).1 ∧
    ((proposePoints text segStart segEnd cfg vid idx st now reply).1.length : ℚ)
      ≤ min 3 (max 1 ((segEnd - segStart) / cfg.plannerMinGapSec)) := by
  have hempty : ∀ l : List ℚ, l = [] →
      ((∀ ts ∈ l, segStart ≤ ts ∧ ts ≤ segEnd) ∧
       List.Chain' (fun a b => a + cfg.plannerMinGapSec ≤ b) l ∧
       ((l.length : ℚ) ≤ min 3 (max 1 ((segEnd - segStart) / cfg.plannerMinGapSec)))) := by
    rintro _ rfl
    refine ⟨by simp, by simp, ?_⟩
    simp only [List.length_nil, Nat.cast_zero]
    exact zero_le_points_cap ((segEnd - segStart) / cfg.plannerMinGapSec)
  unfold proposePoints
  by_cases hg1 : text = "" ∨ text.trim.length < cfg.suspicionLLMMinTextChars
  · rw [if_pos hg1]; exact hempty [] rfl
  rw [if_neg hg1]
  by_cases hg2 : segEnd - segStart < cfg.plannerMinGapSec
  · rw [if_pos hg2]; exact hempty [] rfl
  rw [if_neg hg2]
  split
  next p rsn lat flag st1 heq =>
    rw [heq] at hmiss; simp at hmiss
  next st1 heq =>
    rw [heq] at hmiss; simp at hmiss
  next st1 heq =>
    by_cases hz : cfg.plannerMinGapSec = 0
    · rw [if_pos hz]; exact hempty [] rfl
    rw [if_neg hz]
    cases reply with
    | errDict m => exact hempty [] rfl
    | nonDict m => exact hempty [] rfl
    | exn m => exact hempty [] rfl
    | ok rawPoints rsn lat =>
      have hgap : cfg.plannerMinGapSec ≤ segEnd - segStart := not_lt.mp hg2
      refine ⟨?_, ?_, ?_⟩
      · intro ts hts
        have hts2 : ts ∈ sortAsc (rawPoints.filterMap (fun o => match o with
            | some q => if 0 ≤ q ∧ q ≤ segEnd - segStart then some (segStart + q) else none
            | none => none)) :=
          (gapFilter_sublist cfg.plannerMinGapSec _).subset
            ((List.take_sublist _ _).subset hts)
        have hts3 := mem_sortAsc.mp hts2
        obtain ⟨o, _, ho⟩ := List.mem_filterMap.mp hts3
        cases o with
        | none => simp at ho
        | some q =>
          by_cases hq : 0 ≤ q ∧ q ≤ segEnd - segStart
          · simp only [if_pos hq, Option.some.injEq] at ho
            subst ho
            constructor <;> linarith [hq.1, hq.2]
          · simp [hq] at ho
      · exact (gapFilter_chain cfg.plannerMinGapSec _ (sorted_sortAsc _)).take _
      · refine le_trans ?_ (maxPts_cast_le ((segEnd - segStart) / cfg.plannerMinGapSec))
        have htake : ∀ (L : List ℚ) (n : ℕ), ((L.take n).length : ℚ) ≤ (n : ℚ) := by
          intro L n
          exact_mod_cast (List.length_take n L).le.trans (min_le_left _ _)
        exact htake _ _

theorem propose_points_bounds_witness :
    List.Chain' (fun a b => a + (8 : ℚ) ≤ b)
      (proposePoints "t" 0 20 ⟨0.6, 50, 0, 86400, 5, 8, 120⟩ "v" 0 emptyCache 0
        (.ok [some 1, some 12] "r" 5)).1 :=
  (propose_points_bounds "t" 0 20 ⟨0.6, 50, 0, 86400, 5, 8, 120⟩ "v" 0 emptyCache 0
    (.ok [some 1, some 12] "r" 5) rfl).2.1

/-- The budget-increment guard of `analyze_segments` (lines 684-687):
`cfg.suspicion_mode == "llm" and method == "llm" and not _cache_hit`. -/
def suspicionIncGuard (susMode : String) (r : SuspicionResult) : Bool :=
  susMode == "llm" && r.method == "llm" && !(r.cacheHit.getD false)

theorem getCachedResult_of_no_key (key : String) (ttl now : ℚ) (st : CacheState)
    (h : st.cache.lookup key = none) :
    getCachedResult key ttl now st = (none, st) := by
  unfold getCachedResult
  rw [h]

/-- C9: a suspicion result stored by a successful call is returned verbatim by
a second call with the same key within the TTL, flagged as a cache hit, with no
provider invocation, and the run-budget increment guard rejects it. -/
theorem suspicion_cache_roundtrip
    (text : String) (cfg : PlannerCfg) (vid : String) (idx : ℕ) (st : CacheState)
    (now0 now1 : ℚ) (s : Bool) (c : ℚ) (cat : Option String) (rsn : String) (lat : ℚ)
    (reply1 : SuspReply)
    (hlen : ¬(text = "" ∨ text.trim.length < cfg.suspicionLLMMinTextChars))
    (hmiss : (getCachedResult (cacheKey vid idx (sha1Hex10 text) "suspicion")
        cfg.suspicionLLMCacheTTLSec now0 st).1 = none)
    (httl : now1 - now0 ≤ cfg.suspicionLLMCacheTTLSec) :
    (suspicionScoreLLM text cfg vid idx
        (suspicionScoreLLM text cfg vid idx st now0 (.ok s c cat rsn lat)).2.1
        now1 reply1).1.suspicious
      = (suspicionScoreLLM text cfg vid idx st now0 (.ok s c cat rsn lat)).1.suspicious ∧
    (suspicionScoreLLM text cfg vid idx
        (suspicionScoreLLM text cfg vid idx st now0 (.ok s c cat rsn lat)).2.1
        now1 reply1).1.confidence
      = (suspicionScoreLLM text cfg vid idx st now0 (.ok s c cat rsn lat)).1.confidence ∧
    (suspicionScoreLLM text cfg vid idx
        (suspicionScoreLLM text cfg vid idx st now0 (.ok s c cat rsn lat)).2.1
        now1 reply1).1.category
      = (suspicionScoreLLM text cfg vid idx st now0 (.ok s c cat rsn lat)).1.category ∧
    (suspicionScoreLLM text cfg vid idx
        (suspicionScoreLLM text cfg vid idx st now0 (.ok s c cat rsn lat)).2.1
        now1 reply1).1.reason
      = (suspicionScoreLLM text cfg vid idx st now0 (.ok s c cat rsn lat)).1.reason ∧
    (suspicionScoreLLM text cfg vid idx
        (suspicionScoreLLM text cfg vid idx st now0 (.ok s c cat rsn lat)).2.1
        now1 reply1).1.cacheHit = some true ∧
    (suspicionScoreLLM text cfg vid idx
        (suspicionScoreLLM text cfg vid idx st now0 (.ok s c cat rsn lat)).2.1
        now1 reply1).2.2 = false ∧
    suspicionIncGuard "llm"
      (scoreSuspicion text "llm" cfg vid idx
        (suspicionScoreLLM text cfg vid idx st now0 (.ok s c cat rsn lat)).2.1
        now1 reply1).1 = false := by
  have hfirst : suspicionScoreLLM text cfg vid idx st now0 (.ok s c cat rsn lat)
      = ({ suspicious := s, confidence := max 0 (min 1 c), method := "",
           category := cat, reason := rsn, latencyMs := some lat,
           cacheHit := some false },
         setCachedResult (cacheKey vid idx (sha1Hex10 text) "suspicion")
           (.susp s (max 0 (min 1 c)) cat rsn lat) now0
           (getCachedResult (cacheKey vid idx (sha1Hex10 text) "suspicion")
             cfg.suspicionLLMCacheTTLSec now0 st).2,
         true) := by
    unfold suspicionScoreLLM
    rw [if_neg hlen]
    split
    next st1 heq => rw [heq] at hmiss; simp at hmiss
    next st1 heq => rw [heq] at hmiss; simp at hmiss
    next st1 heq =>
      rw [show st1 = (getCachedResult (cacheKey vid idx (sha1Hex10 text) "suspicion")
          cfg.suspicionLLMCacheTTLSec now0 st).2 from by rw [heq]]
  have hsecond : suspicionScoreLLM text cfg vid idx
      (suspicionScoreLLM text cfg vid idx st now0 (.ok s c cat rsn lat)).2.1 now1 reply1
      = ({ suspicious := s, confidence := max 0 (min 1 c), method := "",
           category := cat, reason := rsn, latencyMs := some lat,
           cacheHit := some true },
         (suspicionScoreLLM text cfg vid idx st now0 (.ok s c cat rsn lat)).2.1,
         false) := by
    rw [hfirst]
    unfold suspicionScoreLLM
    rw [if_neg hlen]
    rw [getCachedResult_after_set _ _ _ _ _ _ httl]
  refine ⟨?_, ?_, ?_, ?_, ?_, ?_, ?_⟩
  · rw [hsecond, hfirst]
  · rw [hsecond, hfirst]
  · rw [hsecond, hfirst]
  · rw [hsecond, hfirst]
  · rw [hsecond]
  · rw [hsecond]
  · unfold scoreSuspicion
    simp only [if_neg (show ¬("llm" = "off") from by decide),
      if_neg (show ¬("llm" = "keywords") from by decide),
      if_pos (show "llm" = "llm" from rfl)]
    rw [hsecond]
    by_cases hth : cfg.suspicionLLMConfThreshold ≤ max 0 (min 1 c) <;>
      simp [scoreSuspicionLLMBranch, suspicionIncGuard, hth]

theorem suspicion_cache_roundtrip_witness :
    (suspicionScoreLLM "abc" ⟨0.6, 50, 0, 86400, 5, 8, 120⟩ "v" 0
        (suspicionScoreLLM "abc" ⟨0.6, 50, 0, 86400, 5, 8, 120⟩ "v" 0 emptyCache 0
          (.ok true 0.7 (some "drugs") "r" 5)).2.1
        10 (.errDict "down")).1.cacheHit = some true :=
  (suspicion_cache_roundtrip "abc" ⟨0.6, 50, 0, 86400, 5, 8, 120⟩ "v" 0 emptyCache 0 10
    true 0.7 (some "drugs") "r" 5 (.errDict "down")
    (by simp) rfl (by norm_num)).2.2.2.2.1

/-- C10: a provider error, error-marked reply, or raised exception stores
nothing: after the call the cache holds no entry for the call's key, the error
result is flagged (`_error` for suspicion, `[]` for planning), and a later call
with the same key consults the provider again instead of replaying a failure
(for planning, provided the gap is non-zero so the later call reaches the
provider at all). -/
theorem error_results_not_cached
    (text : String) (segStart segEnd : ℚ) (cfg : PlannerCfg) (vid : String) (idx : ℕ)
    (st stp : CacheState) (now : ℚ) (sr : SuspReply) (pr : PlanReply)
    (hserr : sr.isError = true) (hperr : pr.isError = true)
    (hgate : ¬(text = "" ∨ text.trim.length < cfg.suspicionLLMMinTextChars))
    (hsmiss : (getCachedResult (cacheKey vid idx (sha1Hex10 text) "suspicion")
        cfg.suspicionLLMCacheTTLSec now st).1 = none)
    (hpgate : ¬(segEnd - segStart < cfg.plannerMinGapSec))
    (hpmiss : (getCachedResult (cacheKey vid idx (sha1Hex10 text) "points")
        cfg.suspicionLLMCacheTTLSec now stp).1 = none) :
    ((suspicionScoreLLM text cfg vid idx st now sr).2.1).cache.lookup
        (cacheKey vid idx (sha1Hex10 text) "suspicion") = none ∧
    (suspicionScoreLLM text cfg vid idx st now sr).1.err = true ∧
    (∀ now2 reply2, (suspicionScoreLLM text cfg vid idx
        (suspicionScoreLLM text cfg vid idx st now sr).2.1 now2 reply2).2.2 = true) ∧
    ((proposePoints text segStart segEnd cfg vid idx stp now pr).2.1).cache.lookup
        (cacheKey vid idx (sha1Hex10 text) "points") = none ∧
    (proposePoints text segStart segEnd cfg vid idx stp now pr).1 = [] ∧
    (cfg.plannerMinGapSec ≠ 0 →
      ∀ now2 reply2, (proposePoints text segStart segEnd cfg vid idx
        (proposePoints text segStart segEnd cfg vid idx stp now pr).2.1
        now2 reply2).2.2 = true) := by
  have hskey := getCachedResult_miss_no_key
    (cacheKey vid idx (sha1Hex10 text) "suspicion") cfg.suspicionLLMCacheTTLSec now st hsmiss
  have hpkey := getCachedResult_miss_no_key
    (cacheKey vid idx (sha1Hex10 text) "points") cfg.suspicionLLMCacheTTLSec now stp hpmiss
  have hsusp : (suspicionScoreLLM text cfg vid idx st now sr).2.1
        = (getCachedResult (cacheKey vid idx (sha1Hex10 text) "suspicion")
            cfg.suspicionLLMCacheTTLSec now st).2 ∧
      (suspicionScoreLLM text cfg vid idx st now sr).1.err = true := by
    unfold suspicionScoreLLM
    rw [if_neg hgate]
    split
    next st1 heq => rw [heq] at hsmiss; simp at hsmiss
    next st1 heq => rw [heq] at hsmiss; simp at hsmiss
    next st1 heq =>
      cases sr with
      | ok s c cat rsn lat => simp [SuspReply.isError] at hserr
      | errDict m => exact ⟨by rw [heq], rfl⟩
      | nonDict m => exact ⟨by rw [heq], rfl⟩
      | exn m => exact ⟨by rw [heq], rfl⟩
  obtain ⟨hsstate, hserr2⟩ := hsusp
  have hplan : (proposePoints text segStart segEnd cfg vid idx stp now pr).2.1
        = (getCachedResult (cacheKey vid idx (sha1Hex10 text) "points")
            cfg.suspicionLLMCacheTTLSec now stp).2 ∧
      (proposePoints text segStart segEnd cfg vid idx stp now pr).1 = [] := by
    unfold proposePoints
    rw [if_neg hgate, if_neg hpgate]
    split
    next p rsn lat flag st1 heq => rw [heq] at hpmiss; simp at hpmiss
    next st1 heq => rw [heq] at hpmiss; simp at hpmiss
    next st1 heq =>
      by_cases hz : cfg.plannerMinGapSec = 0
      · rw [if_pos hz]; exact ⟨by rw [heq], rfl⟩
      · rw [if_neg hz]
        cases pr with
        | ok raw rsn lat => simp [PlanReply.isError] at hperr
        | errDict m => exact ⟨by rw [heq], rfl⟩
        | nonDict m => exact ⟨by rw [heq], rfl⟩
        | exn m => exact ⟨by rw [heq], rfl⟩
  refine ⟨?_, hserr2, ?_, ?_, hplan.2, ?_⟩
  · rw [hsstate]; exact hskey
  · intro now2 reply2
    rw [hsstate]
    unfold suspicionScoreLLM
    rw [if_neg hgate, getCachedResult_of_no_key _ _ _ _ hskey]
    cases reply2 <;> rfl
  · rw [hplan.1]; exact hpkey
  · intro hz now2 reply2
    rw [hplan.1]
    unfold proposePoints
    rw [if_neg hgate, if_neg hpgate, getCachedResult_of_no_key _ _ _ _ hpkey]
    cases reply2 <;> simp [hz]

theorem error_results_not_cached_witness :
    ((suspicionScoreLLM "abc" ⟨0.6, 50, 0, 86400, 5, 8, 120⟩ "v" 0 emptyCache 0
        (.errDict "boom")).2.1).cache.lookup
      (cacheKey "v" 0 (sha1Hex10 "abc") "suspicion") = none :=
  (error_results_not_cached "abc" 0 20 ⟨0.6, 50, 0, 86400, 5, 8, 120⟩ "v" 0
    emptyCache emptyCache 0 (.errDict "boom") (.exn "x") rfl rfl
    (by simp) rfl (by norm_num) rfl).1

/-! ## `llm_decide` (segment_analyzer.py, lines 515-600)

The provider reply is an oracle: a well-formed dict (fields already coerced as
the code does: `bool(...)` for the flag, explanation resolved from its synonym
fields by `str(... or ...)`, `harm_categories` kept as `none` when not a list),
a dict carrying "error", a non-dict value, or an exception (which also covers
`float(confidence)` raising).  The three evidence texts are parameters only of
the prompt, so `llmDecide` carries them without reading them. -/

inductive DecideReply
  | exn (msg : String)
  | nonDict
  | errDict (msg : String)
  | ok (predIsHarmful : Bool) (confidence : ℚ) (harmCategories : Option (List String))
      (explanation : String) (tokenUsage : Option (ℕ × ℕ))
deriving DecidableEq, Repr

def DecideReply.isError : DecideReply → Bool
  | .ok .. => false
  | _ => true

structure Decision where
  isHarmful : Bool
  confidence : ℚ
  categories : List String
  explanation : String
  tokenUsage : Option (ℕ × ℕ) := none
deriving DecidableEq, Repr

def decisionFallback : Decision :=
  { isHarmful := false, confidence := 0, categories := [],
    explanation := "Analysis failed - assuming safe" }

def llmDecide (_audioText _ocrText _captionsText : String) (reply : DecideReply) :
    Decision :=
  match reply with
  | .ok ph c cats expl tu =>
    { isHarmful := ph, confidence := max 0 (min 1 c),
      categories := cats.getD [], explanation := expl, tokenUsage := tu }
  | .errDict _ => decisionFallback
  | .nonDict => decisionFallback
  | .exn _ => decisionFallback

theorem llmDecide_confidence_bounds (a o c : String) (reply : DecideReply) :
    0 ≤ (llmDecide a o c reply).confidence ∧ (llmDecide a o c reply).confidence ≤ 1 := by
  cases reply with
  | ok ph cf cats expl tu =>
    exact ⟨le_max_left 0 _, max_le (by norm_num) (min_le_left 1 cf)⟩
  | errDict m => exact ⟨le_refl 0, by norm_num [llmDecide, decisionFallback]⟩
  | nonDict => exact ⟨le_refl 0, by norm_num [llmDecide, decisionFallback]⟩
  | exn m => exact ⟨le_refl 0, by norm_num [llmDecide, decisionFallback]⟩

/-- C8: provider errors, non-dict replies and raised exceptions all yield the
safe default decision (`is_harmful = false`, `confidence = 0`) — the function
is total, so no failure propagates; on a well-formed reply the confidence is
clamped to `[0,1]` and a non-list `harm_categories` becomes `[]`. -/
theorem llm_decide_safe_default (audio ocr caps : String) (reply : DecideReply) :
    (reply.isError = true → llmDecide audio ocr caps reply = decisionFallback ∧
      (llmDecide audio ocr caps reply).isHarmful = false ∧
      (llmDecide audio ocr caps reply).confidence = 0) ∧
    (∀ ph c cats expl tu, reply = .ok ph c cats expl tu →
      (llmDecide audio ocr caps reply).isHarmful = ph ∧
      (llmDecide audio ocr caps reply).confidence = max 0 (min 1 c) ∧
      0 ≤ (llmDecide audio ocr caps reply).confidence ∧
      (llmDecide audio ocr caps reply).confidence ≤ 1 ∧
      (llmDecide audio ocr caps reply).categories = cats.getD []) := by
  constructor
  · intro herr
    cases reply with
    | ok ph cf cats expl tu => simp [DecideReply.isError] at herr
    | errDict m => exact ⟨rfl, rfl, rfl⟩
    | nonDict => exact ⟨rfl, rfl, rfl⟩
    | exn m => exact ⟨rfl, rfl, rfl⟩
  · rintro ph c cats expl tu rfl
    refine ⟨rfl, rfl, ?_, ?_, rfl⟩
    · exact (llmDecide_confidence_bounds audio ocr caps _).1
    · exact (llmDecide_confidence_bounds audio ocr caps _).2

theorem llm_decide_safe_default_witness :
    (llmDecide "a" "o" "c" (.errDict "http 500") = decisionFallback ∧
     (llmDecide "a" "o" "c" (.errDict "http 500")).isHarmful = false ∧
     (llmDecide "a" "o" "c" (.errDict "http 500")).confidence = 0) ∧
    ((llmDecide "a" "o" "c" (.ok true (3/2) none "e" none)).isHarmful = true ∧
     (llmDecide "a" "o" "c" (.ok true (3/2) none "e" none)).confidence = max 0 (min 1 (3/2)) ∧
     0 ≤ (llmDecide "a" "o" "c" (.ok true (3/2) none "e" none)).confidence ∧
     (llmDecide "a" "o" "c" (.ok true (3/2) none "e" none)).confidence ≤ 1 ∧
     (llmDecide "a" "o" "c" (.ok true (3/2) none "e" none)).categories
       = (none : Option (List String)).getD []) :=
  ⟨(llm_decide_safe_default "a" "o" "c" (.errDict "http 500")).1 rfl,
   (llm_decide_safe_default "a" "o" "c" (.ok true (3/2) none "e" none)).2
     true (3/2) none "e" none rfl⟩

/-! ## `analyze_segments` (segment_analyzer.py, lines 611-867)

The loop walks the segments sequentially and threads the two per-run budget
counters, the mutable `cfg.suspicion_mode`, the shared cache, the harmful-event
list and the aggregated token usage.  Everything external to the loop body —
the per-segment transcript, the provider replies, the wall clock, whether
frame extraction produced any frame, whether `transcribe_clip`/
`gather_evidence` raised — arrives through a per-segment `SegOracle`.  The
merged timestamp list of step 4 is consumed by frame extraction, whose outcome
the oracle summarizes as `framesEmpty`/`numFrames`, so it does not appear in
the run state.  `format_timestamp` is presentation-only: events keep the raw
start/end seconds. -/

structure AnalyzeCfg where
  suspicionMode : String
  segSafeSampleSec : ℚ
  segSusSampleSec : ℚ
  maxFramesPerSegment : ℕ
deriving DecidableEq, Repr

/-- `int(x)` for a Python float: truncation toward zero. -/
def pyTrunc (q : ℚ) : ℤ := if 0 ≤ q then ⌊q⌋ else ⌈q⌉

structure HarmfulEvent where
  segmentStart : ℚ
  segmentEnd : ℚ
  analysisMode : String
  numFrames : ℕ
  analysisPerformed : List String
  audioEvidence : String
  isHarmfulFlag : Bool
  needsVerification : Bool
  confidencePct : ℤ
  explanation : String
  categories : List String
  suspicionMethod : String
  planningModeField : String
  plannedPoints : ℕ
deriving DecidableEq, Repr

structure RunState where
  susMode : String
  suspicionLLMCalls : ℕ
  plannedPointsTotal : ℕ
  cache : CacheState
  events : List HarmfulEvent
  promptTokens : ℕ
  completionTokens : ℕ
deriving DecidableEq, Repr

structure SegOracle where
  segStart : ℚ
  segEnd : ℚ
  text : String
  abortTranscript : Bool
  nowSus : ℚ
  susReply : SuspReply
  nowPlan : ℚ
  planReply : PlanReply
  framesEmpty : Bool
  abortEvidence : Bool
  numFrames : ℕ
  ocrText : String
  captionsText : String
  decideReply : DecideReply
deriving DecidableEq, Repr

/-- Per-segment observations used to state the budget claims. -/
structure StepLog where
  susProviderCalled : Bool
  planProviderCalled : Bool
  plannedCount : ℕ
  currentMode : String
  eventEmitted : Bool
deriving DecidableEq, Repr

/-- `while current < end and len(...) < cap` periodic timestamp generation. -/
def genPeriodicGo (endT interval : ℚ) : ℚ → ℕ → List ℚ
  | _, 0 => []
  | current, fuel + 1 =>
    if current < endT then current :: genPeriodicGo endT interval (current + interval) fuel
    else []

def genPeriodic (start endT interval : ℚ) (cap : ℕ) : List ℚ :=
  genPeriodicGo endT interval start cap

/-- The budget pre-check of lines 668-672 (reads the mutable `cfg.suspicion_mode`). -/
def preCheckMode (pcfg : PlannerCfg) (st : RunState) : String :=
  if st.susMode = "llm" ∧ pcfg.suspicionLLMMaxSegments ≤ st.suspicionLLMCalls
  then "keywords" else st.susMode

/-- The increment of lines 684-687. -/
def bumpCalls (st : RunState) (sr : SuspicionResult) : ℕ :=
  if st.susMode = "llm" ∧ sr.method = "llm" ∧ sr.cacheHit.getD false = false
  then st.suspicionLLMCalls + 1 else st.suspicionLLMCalls

/-- The post-increment downgrade of lines 689-694 (mutates `cfg.suspicion_mode`). -/
def postCheckMode (pcfg : PlannerCfg) (st : RunState) (calls1 : ℕ) : String :=
  if st.susMode = "llm" ∧ pcfg.suspicionLLMMaxSegments ≤ calls1
  then "keywords" else st.susMode

/-- The planning step of lines 698-721: gated on planning mode, suspicion and
the remaining point budget; accepted points are truncated to that budget. -/
def planningStep (vid planningMode : String) (pcfg : PlannerCfg) (st : RunState)
    (i : ℕ) (cache1 : CacheState) (o : SegOracle) (isSuspicious : Bool) :
    List ℚ × CacheState × Bool :=
  if (planningMode = "llm" ∨ planningMode = "hybrid") ∧ isSuspicious = true ∧
      st.plannedPointsTotal < pcfg.plannerLLMMaxPoints then
    ((proposePoints o.text o.segStart o.segEnd pcfg vid i cache1 o.nowPlan o.planReply).1.take
       (pcfg.plannerLLMMaxPoints - st.plannedPointsTotal),
     (proposePoints o.text o.segStart o.segEnd pcfg vid i cache1 o.nowPlan o.planReply).2.1,
     (proposePoints o.text o.segStart o.segEnd pcfg vid i cache1 o.nowPlan o.planReply).2.2)
  else ([], cache1, false)

/-- Which analysis names the event records (lines 776-787). -/
def analysisPerformedOf (captions ocr : String) : List String :=
  ["frame_extraction", "audio_analysis"]
    ++ (if captions ≠ "" then
          [if containsSub captions "Caption:" then "image_captioning"
           else "image_classification"]
        else [])
    ++ (if ocr ≠ "" then ["ocr"] else [])

/-- The harmful-event dict of lines 789-806. -/
def mkHarmfulEvent (planningMode : String) (o : SegOracle) (sr : SuspicionResult)
    (decision : Decision) (plannedCount : ℕ) : HarmfulEvent :=
  { segmentStart := o.segStart, segmentEnd := o.segEnd,
    analysisMode := "region",
    numFrames := o.numFrames,
    analysisPerformed := analysisPerformedOf o.captionsText o.ocrText,
    audioEvidence := o.text,
    isHarmfulFlag := true, needsVerification := false,
    confidencePct := pyTrunc (decision.confidence * 100),
    explanation := decision.explanation,
    categories := decision.categories,
    suspicionMethod := sr.method,
    planningModeField := planningMode,
    plannedPoints := plannedCount }

/-- Token aggregation of lines 819-824. -/
def addTokens (st : RunState) : Option (ℕ × ℕ) → RunState
  | some pc =>
    { st with
      promptTokens := st.promptTokens + pc.1,
      completionTokens := st.completionTokens + pc.2 }
  | none => st

/-- One iteration of the `for i, segment in enumerate(segments)` loop.  The
`except` handler around the body means an exception skips the rest of the
segment but keeps all state updates made so far (`abortTranscript` cuts before
any update, `abortEvidence` after the budget updates). -/
def stepSegment (vid planningMode : String) (pcfg : PlannerCfg) (acfg : AnalyzeCfg)
    (i : ℕ) (st : RunState) (o : SegOracle) : RunState × StepLog :=
  if o.abortTranscript then (st, ⟨false, false, 0, "", false⟩)
  else
    let currentMode := preCheckMode pcfg st
    let scored := scoreSuspicion o.text currentMode pcfg vid i st.cache o.nowSus o.susReply
    let sr := scored.1
    let calls1 := bumpCalls st sr
    let susMode1 := postCheckMode pcfg st calls1
    let planned := planningStep vid planningMode pcfg st i scored.2.1 o sr.suspicious
    let total1 := st.plannedPointsTotal + planned.1.length
    -- step 4 (lines 723-748): the merged timestamp list only feeds frame
    -- extraction, whose outcome the oracle carries (framesEmpty, numFrames)
    let interval := if sr.suspicious then acfg.segSusSampleSec else acfg.segSafeSampleSec
    let periodic := genPeriodic o.segStart o.segEnd interval acfg.maxFramesPerSegment
    let _finalTimestamps :=
      if planned.1 ≠ [] then
        mergeTimestampsWithPlanning periodic planned.1 pcfg.plannerMinGapSec
          (pcfg.plannerMaxExtraFrames : ℤ) (some (acfg.maxFramesPerSegment : ℤ))
          (some ((pcfg.plannerLLMMaxPoints : ℤ) - (total1 : ℤ)))
      else periodic
    let st1 : RunState :=
      { st with
        susMode := susMode1, suspicionLLMCalls := calls1,
        plannedPointsTotal := total1, cache := planned.2.1 }
    if o.framesEmpty ∨ o.abortEvidence then
      (st1, ⟨scored.2.2, planned.2.2, planned.1.length, currentMode, false⟩)
    else
      let decision := llmDecide o.text o.ocrText o.captionsText o.decideReply
      let st2 :=
        if decision.isHarmful then
          { st1 with events := st1.events
            ++ [mkHarmfulEvent planningMode o sr decision planned.1.length] }
        else st1
      (addTokens st2 decision.tokenUsage,
       ⟨scored.2.2, planned.2.2, planned.1.length, currentMode, decision.isHarmful⟩)

def runSegments (vid planningMode : String) (pcfg : PlannerCfg) (acfg : AnalyzeCfg) :
    ℕ → RunState → List SegOracle → RunState
  | _, st, [] => st
  | i, st, o :: os =>
    runSegments vid planningMode pcfg acfg (i + 1)
      (stepSegment vid planningMode pcfg acfg i st o).1 os

/-- Counters start at zero (lines 645-647); `cfg.suspicion_mode` is read once. -/
def initRunState (acfg : AnalyzeCfg) (cache0 : CacheState) : RunState :=
  { susMode := acfg.suspicionMode, suspicionLLMCalls := 0, plannedPointsTotal := 0,
    cache := cache0, events := [], promptTokens := 0, completionTokens := 0 }

def analyzeSegments (vid planningMode : String) (pcfg : PlannerCfg) (acfg : AnalyzeCfg)
    (oracles : List SegOracle) (cache0 : CacheState) : RunState :=
  runSegments vid planningMode pcfg acfg 0 (initRunState acfg cache0) oracles

/-! ### Step lemmas for the budget invariant (C2) and event shape (C7) -/

theorem addTokens_suspicionLLMCalls (st : RunState) (tu : Option (ℕ × ℕ)) :
    (addTokens st tu).suspicionLLMCalls = st.suspicionLLMCalls := by
  cases tu <;> rfl

theorem addTokens_plannedPointsTotal (st : RunState) (tu : Option (ℕ × ℕ)) :
    (addTokens st tu).plannedPointsTotal = st.plannedPointsTotal := by
  cases tu <;> rfl

theorem addTokens_susMode (st : RunState) (tu : Option (ℕ × ℕ)) :
    (addTokens st tu).susMode = st.susMode := by
  cases tu <;> rfl

theorem addTokens_events (st : RunState) (tu : Option (ℕ × ℕ)) :
    (addTokens st tu).events = st.events := by
  cases tu <;> rfl

theorem scoreSuspicionKeywords_method (t : String) :
    (scoreSuspicionKeywords t).method = "keywords" := by
  unfold scoreSuspicionKeywords
  by_cases h : t = ""
  · rw [if_pos h]
  · rw [if_neg h]
    cases hf : findKeyword (strLower t) suspicionKeywords with
    | none => rfl
    | some p => obtain ⟨c, k⟩ := p; rfl

theorem scoreSuspicion_method_llm (text mode : String) (cfg : PlannerCfg) (vid : String)
    (i : ℕ) (st : CacheState) (now : ℚ) (reply : SuspReply)
    (h : (scoreSuspicion text mode cfg vid i st now reply).1.method = "llm") :
    mode = "llm" := by
  by_contra hne
  unfold scoreSuspicion at h
  by_cases h1 : mode = "off"
  · rw [if_pos h1] at h
    simp at h
  · rw [if_neg h1] at h
    by_cases h2 : mode = "keywords"
    · rw [if_pos h2] at h
      simp [scoreSuspicionKeywords_method] at h
    · rw [if_neg h2, if_neg hne] at h
      simp [scoreSuspicionKeywords_method] at h

theorem scoreSuspicion_not_called (text mode : String) (cfg : PlannerCfg) (vid : String)
    (i : ℕ) (st : CacheState) (now : ℚ) (reply : SuspReply) (h : mode ≠ "llm") :
    (scoreSuspicion text mode cfg vid i st now reply).2.2 = false := by
  unfold scoreSuspicion
  by_cases h1 : mode = "off"
  · rw [if_pos h1]
  · rw [if_neg h1]
    by_cases h2 : mode = "keywords"
    · rw [if_pos h2]
    · rw [if_neg h2, if_neg h]

/-- The fields of the post-step state and log, for a non-aborted segment. -/
theorem stepSegment_fields (vid pm : String) (pcfg : PlannerCfg) (acfg : AnalyzeCfg)
    (i : ℕ) (st : RunState) (o : SegOracle) (ha : o.abortTranscript = false) :
    (stepSegment vid pm pcfg acfg i st o).1.suspicionLLMCalls
        = bumpCalls st (scoreSuspicion o.text (preCheckMode pcfg st) pcfg vid i st.cache
            o.nowSus o.susReply).1 ∧
    (stepSegment vid pm pcfg acfg i st o).1.plannedPointsTotal
        = st.plannedPointsTotal + (planningStep vid pm pcfg st i
            (scoreSuspicion o.text (preCheckMode pcfg st) pcfg vid i st.cache
              o.nowSus o.susReply).2.1 o
            (scoreSuspicion o.text (preCheckMode pcfg st) pcfg vid i st.cache
              o.nowSus o.susReply).1.suspicious).1.length ∧
    (stepSegment vid pm pcfg acfg i st o).2.susProviderCalled
        = (scoreSuspicion o.text (preCheckMode pcfg st) pcfg vid i st.cache
            o.nowSus o.susReply).2.2 ∧
    (stepSegment vid pm pcfg acfg i st o).2.planProviderCalled
        = (planningStep vid pm pcfg st i
            (scoreSuspicion o.text (preCheckMode pcfg st) pcfg vid i st.cache
              o.nowSus o.susReply).2.1 o
            (scoreSuspicion o.text (preCheckMode pcfg st) pcfg vid i st.cache
              o.nowSus o.susReply).1.suspicious).2.2 ∧
    (stepSegment vid pm pcfg acfg i st o).2.plannedCount
        = (planningStep vid pm pcfg st i
            (scoreSuspicion o.text (preCheckMode pcfg st) pcfg vid i st.cache
              o.nowSus o.susReply).2.1 o
            (scoreSuspicion o.text (preCheckMode pcfg st) pcfg vid i st.cache
              o.nowSus o.susReply).1.suspicious).1.length := by
  unfold stepSegment
  rw [if_neg (by simp [ha])]
  by_cases hf : o.framesEmpty ∨ o.abortEvidence
  · simp only [if_pos hf]
    refine ⟨?_, ?_, ?_, ?_, ?_⟩ <;> trivial
  · simp only [if_neg hf]
    by_cases hd : (llmDecide o.text o.ocrText o.captionsText o.decideReply).isHarmful
    · simp only [if_pos hd, addTokens_suspicionLLMCalls, addTokens_plannedPointsTotal]
      refine ⟨?_, ?_, ?_, ?_, ?_⟩ <;> trivial
    · simp only [if_neg hd, addTokens_suspicionLLMCalls, addTokens_plannedPointsTotal]
      refine ⟨?_, ?_, ?_, ?_, ?_⟩ <;> trivial

theorem stepSegment_abort (vid pm : String) (pcfg : PlannerCfg) (acfg : AnalyzeCfg)
    (i : ℕ) (st : RunState) (o : SegOracle) (ha : o.abortTranscript = true) :
    stepSegment vid pm pcfg acfg i st o = (st, ⟨false, false, 0, "", false⟩) := by
  unfold stepSegment
  rw [if_pos (by simp [ha])]

theorem preCheckMode_ne_llm (pcfg : PlannerCfg) (st : RunState)
    (hceil : pcfg.suspicionLLMMaxSegments ≤ st.suspicionLLMCalls) :
    preCheckMode pcfg st ≠ "llm" := by
  unfold preCheckMode
  by_cases hm : st.susMode = "llm"
  · rw [if_pos ⟨hm, hceil⟩]; decide
  · rw [if_neg (fun hcon => hm hcon.1)]; exact hm

theorem stepSegment_calls_bound (vid pm : String) (pcfg : PlannerCfg) (acfg : AnalyzeCfg)
    (i : ℕ) (st : RunState) (o : SegOracle)
    (hinv : st.suspicionLLMCalls ≤ pcfg.suspicionLLMMaxSegments) :
    (stepSegment vid pm pcfg acfg i st o).1.suspicionLLMCalls
        ≤ pcfg.suspicionLLMMaxSegments ∧
    st.suspicionLLMCalls ≤ (stepSegment vid pm pcfg acfg i st o).1.suspicionLLMCalls := by
  by_cases ha : o.abortTranscript
  · rw [stepSegment_abort vid pm pcfg acfg i st o ha]
    exact ⟨hinv, le_refl _⟩
  · have ha' : o.abortTranscript = false := by simpa using ha
    obtain ⟨hc, -, -, -, -⟩ := stepSegment_fields vid pm pcfg acfg i st o ha'
    rw [hc]
    unfold bumpCalls
    by_cases hb : st.susMode = "llm" ∧
        (scoreSuspicion o.text (preCheckMode pcfg st) pcfg vid i st.cache
          o.nowSus o.susReply).1.method = "llm" ∧
        (scoreSuspicion o.text (preCheckMode pcfg st) pcfg vid i st.cache
          o.nowSus o.susReply).1.cacheHit.getD false = false
    · rw [if_pos hb]
      have hm := scoreSuspicion_method_llm _ _ _ _ _ _ _ _ hb.2.1
      have hnotceil : ¬ pcfg.suspicionLLMMaxSegments ≤ st.suspicionLLMCalls :=
        fun hle => preCheckMode_ne_llm pcfg st hle hm
      omega
    · rw [if_neg hb]
      exact ⟨hinv, le_refl _⟩

theorem stepSegment_total_bound (vid pm : String) (pcfg : PlannerCfg) (acfg : AnalyzeCfg)
    (i : ℕ) (st : RunState) (o : SegOracle)
    (hinv : st.plannedPointsTotal ≤ pcfg.plannerLLMMaxPoints) :
    (stepSegment vid pm pcfg acfg i st o).1.plannedPointsTotal
        ≤ pcfg.plannerLLMMaxPoints ∧
    st.plannedPointsTotal ≤ (stepSegment vid pm pcfg acfg i st o).1.plannedPointsTotal := by
  by_cases ha : o.abortTranscript
  · rw [stepSegment_abort vid pm pcfg acfg i st o ha]
    exact ⟨hinv, le_refl _⟩
  · have ha' : o.abortTranscript = false := by simpa using ha
    obtain ⟨-, ht, -, -, -⟩ := stepSegment_fields vid pm pcfg acfg i st o ha'
    rw [ht]
    unfold planningStep
    by_cases hcond : (pm = "llm" ∨ pm = "hybrid") ∧
        (scoreSuspicion o.text (preCheckMode pcfg st) pcfg vid i st.cache
          o.nowSus o.susReply).1.suspicious = true ∧
        st.plannedPointsTotal < pcfg.plannerLLMMaxPoints
    · rw [if_pos hcond]
      dsimp only
      have hlen := (List.length_take (pcfg.plannerLLMMaxPoints - st.plannedPointsTotal)
        (proposePoints o.text o.segStart o.segEnd pcfg vid i
          (scoreSuspicion o.text (preCheckMode pcfg st) pcfg vid i st.cache
            o.nowSus o.susReply).2.1 o.nowPlan o.planReply).1).le.trans
        (min_le_left _ _)
      have := hcond.2.2
      omega
    · rw [if_neg hcond]
      simpa using hinv

theorem stepSegment_sus_ceiling (vid pm : String) (pcfg : PlannerCfg) (acfg : AnalyzeCfg)
    (i : ℕ) (st : RunState) (o : SegOracle)
    (hceil : pcfg.suspicionLLMMaxSegments ≤ st.suspicionLLMCalls) :
    (stepSegment vid pm pcfg acfg i st o).2.susProviderCalled = false ∧
    (stepSegment vid pm pcfg acfg i st o).1.suspicionLLMCalls = st.suspicionLLMCalls := by
  by_cases ha : o.abortTranscript
  · rw [stepSegment_abort vid pm pcfg acfg i st o ha]
    exact ⟨rfl, rfl⟩
  · have ha' : o.abortTranscript = false := by simpa using ha
    obtain ⟨hc, -, hlog, -, -⟩ := stepSegment_fields vid pm pcfg acfg i st o ha'
    have hne := preCheckMode_ne_llm pcfg st hceil
    constructor
    · rw [hlog]
      exact scoreSuspicion_not_called _ _ _ _ _ _ _ _ hne
    · rw [hc]
      unfold bumpCalls
      rw [if_neg]
      rintro ⟨-, hmeth, -⟩
      exact hne (scoreSuspicion_method_llm _ _ _ _ _ _ _ _ hmeth)

theorem stepSegment_plan_ceiling (vid pm : String) (pcfg : PlannerCfg) (acfg : AnalyzeCfg)
    (i : ℕ) (st : RunState) (o : SegOracle)
    (hceil : pcfg.plannerLLMMaxPoints ≤ st.plannedPointsTotal) :
    (stepSegment vid pm pcfg acfg i st o).2.planProviderCalled = false ∧
    (stepSegment vid pm pcfg acfg i st o).2.plannedCount = 0 ∧
    (stepSegment vid pm pcfg acfg i st o).1.plannedPointsTotal = st.plannedPointsTotal := by
  by_cases ha : o.abortTranscript
  · rw [stepSegment_abort vid pm pcfg acfg i st o ha]
    exact ⟨rfl, rfl, rfl⟩
  · have ha' : o.abortTranscript = false := by simpa using ha
    obtain ⟨-, ht, -, hlogp, hlogc⟩ := stepSegment_fields vid pm pcfg acfg i st o ha'
    have hneg : ¬((pm = "llm" ∨ pm = "hybrid") ∧
        (scoreSuspicion o.text (preCheckMode pcfg st) pcfg vid i st.cache
          o.nowSus o.susReply).1.suspicious = true ∧
        st.plannedPointsTotal < pcfg.plannerLLMMaxPoints) := by
      rintro ⟨-, -, hlt⟩
      omega
    refine ⟨?_, ?_, ?_⟩
    · rw [hlogp]
      unfold planningStep
      rw [if_neg hneg]
    · rw [hlogc]
      unfold planningStep
      rw [if_neg hneg]
      rfl
    · rw [ht]
      unfold planningStep
      rw [if_neg hneg]
      simp

theorem runSegments_inv (vid pm : String) (pcfg : PlannerCfg) (acfg : AnalyzeCfg) :
    ∀ (oracles : List SegOracle) (i : ℕ) (st : RunState),
    st.suspicionLLMCalls ≤ pcfg.suspicionLLMMaxSegments →
    st.plannedPointsTotal ≤ pcfg.plannerLLMMaxPoints →
    (runSegments vid pm pcfg acfg i st oracles).suspicionLLMCalls
        ≤ pcfg.suspicionLLMMaxSegments ∧
    (runSegments vid pm pcfg acfg i st oracles).plannedPointsTotal
        ≤ pcfg.plannerLLMMaxPoints := by
  intro oracles
  induction oracles with
  | nil => intro i st h1 h2; exact ⟨h1, h2⟩
  | cons o os ih =>
    intro i st h1 h2
    exact ih (i + 1) _ (stepSegment_calls_bound vid pm pcfg acfg i st o h1).1
      (stepSegment_total_bound vid pm pcfg acfg i st o h2).1

theorem runSegments_append (vid pm : String) (pcfg : PlannerCfg) (acfg : AnalyzeCfg) :
    ∀ (l1 l2 : List SegOracle) (i : ℕ) (st : RunState),
    runSegments vid pm pcfg acfg i st (l1 ++ l2)
      = runSegments vid pm pcfg acfg (i + l1.length)
          (runSegments vid pm pcfg acfg i st l1) l2 := by
  intro l1
  induction l1 with
  | nil => intro l2 i st; simp [runSegments]
  | cons o os ih =>
    intro l2 i st
    show runSegments vid pm pcfg acfg (i + 1) _ (os ++ l2) = _
    rw [ih l2 (i + 1) _]
    congr 1
    simp only [List.length_cons]
    omega

/-- C2: in every run of `analyze_segments`, the per-run counters start at zero,
only ever grow, never exceed their ceilings at any prefix of the run, and once
a ceiling is reached every subsequent segment takes the cheaper path: the
suspicion scorer runs without the LLM provider (keyword downgrade) and leaves
the counter unchanged, and the planner is skipped entirely (no provider call,
zero accepted points, counter unchanged). -/
theorem analyze_segments_budget_invariant
    (vid pm : String) (pcfg : PlannerCfg) (acfg : AnalyzeCfg)
    (oracles : List SegOracle) (cache0 : CacheState) :
    ((analyzeSegments vid pm pcfg acfg (oracles.take 0) cache0).suspicionLLMCalls = 0 ∧
     (analyzeSegments vid pm pcfg acfg (oracles.take 0) cache0).plannedPointsTotal = 0) ∧
    (∀ k : ℕ,
      (analyzeSegments vid pm pcfg acfg (oracles.take k) cache0).suspicionLLMCalls
        ≤ (analyzeSegments vid pm pcfg acfg (oracles.take (k+1)) cache0).suspicionLLMCalls ∧
      (analyzeSegments vid pm pcfg acfg (oracles.take k) cache0).plannedPointsTotal
        ≤ (analyzeSegments vid pm pcfg acfg (oracles.take (k+1)) cache0).plannedPointsTotal) ∧
    (∀ k : ℕ,
      (analyzeSegments vid pm pcfg acfg (oracles.take k) cache0).suspicionLLMCalls
        ≤ pcfg.suspicionLLMMaxSegments ∧
      (analyzeSegments vid pm pcfg acfg (oracles.take k) cache0).plannedPointsTotal
        ≤ pcfg.plannerLLMMaxPoints) ∧
    (∀ (k i : ℕ) (o : SegOracle),
      pcfg.suspicionLLMMaxSegments
          ≤ (analyzeSegments vid pm pcfg acfg (oracles.take k) cache0).suspicionLLMCalls →
      (stepSegment vid pm pcfg acfg i
          (analyzeSegments vid pm pcfg acfg (oracles.take k) cache0) o).2.susProviderCalled
        = false ∧
      (stepSegment vid pm pcfg acfg i
          (analyzeSegments vid pm pcfg acfg (oracles.take k) cache0) o).1.suspicionLLMCalls
        = (analyzeSegments vid pm pcfg acfg (oracles.take k) cache0).suspicionLLMCalls) ∧
    (∀ (k i : ℕ) (o : SegOracle),
      pcfg.plannerLLMMaxPoints
          ≤ (analyzeSegments vid pm pcfg acfg (oracles.take k) cache0).plannedPointsTotal →
      (stepSegment vid pm pcfg acfg i
          (analyzeSegments vid pm pcfg acfg (oracles.take k) cache0) o).2.planProviderCalled
        = false ∧
      (stepSegment vid pm pcfg acfg i
          (analyzeSegments vid pm pcfg acfg (oracles.take k) cache0) o).2.plannedCount = 0 ∧
      (stepSegment vid pm pcfg acfg i
          (analyzeSegments vid pm pcfg acfg (oracles.take k) cache0) o).1.plannedPointsTotal
        = (analyzeSegments vid pm pcfg acfg (oracles.take k) cache0).plannedPointsTotal) := by
  refine ⟨⟨rfl, rfl⟩, ?_, ?_, ?_, ?_⟩
  · intro k
    unfold analyzeSegments
    rw [show oracles.take (k+1) = oracles.take k ++ (oracles[k]?).toList from
      List.take_succ]
    rw [runSegments_append]
    cases hk : oracles[k]? with
    | none => simp [runSegments]
    | some o =>
      have hinv := runSegments_inv vid pm pcfg acfg (oracles.take k) 0
        (initRunState acfg cache0) (Nat.zero_le _) (Nat.zero_le _)
      simp only [Option.toList]
      exact ⟨(stepSegment_calls_bound vid pm pcfg acfg _ _ o hinv.1).2,
        (stepSegment_total_bound vid pm pcfg acfg _ _ o hinv.2).2⟩
  · intro k
    exact runSegments_inv vid pm pcfg acfg (oracles.take k) 0 (initRunState acfg cache0)
      (Nat.zero_le _) (Nat.zero_le _)
  · intro k i o hceil
    exact stepSegment_sus_ceiling vid pm pcfg acfg i _ o hceil
  · intro k i o hceil
    exact stepSegment_plan_ceiling vid pm pcfg acfg i _ o hceil

theorem analyze_segments_budget_invariant_witness :
    (stepSegment "v" "llm" ⟨0.6, 0, 0, 86400, 0, 8, 120⟩ ⟨"llm", 3, 5, 2⟩ 0
        (analyzeSegments "v" "llm" ⟨0.6, 0, 0, 86400, 0, 8, 120⟩ ⟨"llm", 3, 5, 2⟩
          (([] : List SegOracle).take 0) emptyCache)
        ⟨0, 1, "", false, 0, .exn "x", 0, .exn "x", true, false, 0, "", "", .nonDict⟩
      ).2.susProviderCalled = false ∧
    (stepSegment "v" "llm" ⟨0.6, 0, 0, 86400, 0, 8, 120⟩ ⟨"llm", 3, 5, 2⟩ 0
        (analyzeSegments "v" "llm" ⟨0.6, 0, 0, 86400, 0, 8, 120⟩ ⟨"llm", 3, 5, 2⟩
          (([] : List SegOracle).take 0) emptyCache)
        ⟨0, 1, "", false, 0, .exn "x", 0, .exn "x", true, false, 0, "", "", .nonDict⟩
      ).2.plannedCount = 0 :=
  ⟨((analyze_segments_budget_invariant "v" "llm" ⟨0.6, 0, 0, 86400, 0, 8, 120⟩
      ⟨"llm", 3, 5, 2⟩ [] emptyCache).2.2.2.1 0 0
      ⟨0, 1, "", false, 0, .exn "x", 0, .exn "x", true, false, 0, "", "", .nonDict⟩
      (Nat.zero_le _)).1,
   ((analyze_segments_budget_invariant "v" "llm" ⟨0.6, 0, 0, 86400, 0, 8, 120⟩
      ⟨"llm", 3, 5, 2⟩ [] emptyCache).2.2.2.2 0 0
      ⟨0, 1, "", false, 0, .exn "x", 0, .exn "x", true, false, 0, "", "", .nonDict⟩
      (Nat.zero_le _)).2.1⟩

/-! ### C7: emitted harmful events -/

def harmEventSound (e : HarmfulEvent) : Prop :=
  e.isHarmfulFlag = true ∧ 0 ≤ e.confidencePct ∧ e.confidencePct ≤ 100 ∧
  ∃ q : ℚ, 0 ≤ q ∧ q ≤ 1 ∧ e.confidencePct = pyTrunc (q * 100)

theorem mkHarmfulEvent_sound (pm : String) (o : SegOracle) (sr : SuspicionResult)
    (dec : Decision) (n : ℕ) (h0 : 0 ≤ dec.confidence) (h1 : dec.confidence ≤ 1) :
    harmEventSound (mkHarmfulEvent pm o sr dec n) := by
  have hq0 : (0 : ℚ) ≤ dec.confidence * 100 := by nlinarith
  have hq1 : dec.confidence * 100 ≤ 100 := by nlinarith
  refine ⟨rfl, ?_, ?_, dec.confidence, h0, h1, rfl⟩
  · show 0 ≤ pyTrunc (dec.confidence * 100)
    rw [pyTrunc, if_pos hq0]
    exact Int.floor_nonneg.mpr hq0
  · show pyTrunc (dec.confidence * 100) ≤ 100
    rw [pyTrunc, if_pos hq0]
    calc ⌊dec.confidence * 100⌋ ≤ ⌊(100 : ℚ)⌋ := Int.floor_le_floor hq1
      _ = 100 := by norm_num

theorem stepSegment_events_spec (vid pm : String) (pcfg : PlannerCfg) (acfg : AnalyzeCfg)
    (i : ℕ) (st : RunState) (o : SegOracle) :
    (stepSegment vid pm pcfg acfg i st o).1.events = st.events ∨
    (∃ sr n, (stepSegment vid pm pcfg acfg i st o).1.events
        = st.events ++ [mkHarmfulEvent pm o sr
            (llmDecide o.text o.ocrText o.captionsText o.decideReply) n] ∧
      (llmDecide o.text o.ocrText o.captionsText o.decideReply).isHarmful = true) := by
  by_cases ha : o.abortTranscript
  · rw [stepSegment_abort vid pm pcfg acfg i st o ha]
    left; rfl
  · have ha' : o.abortTranscript = false := by simpa using ha
    unfold stepSegment
    rw [if_neg (by simp [ha'])]
    by_cases hf : o.framesEmpty ∨ o.abortEvidence
    · simp only [if_pos hf]
      left; trivial
    · simp only [if_neg hf]
      by_cases hd : (llmDecide o.text o.ocrText o.captionsText o.decideReply).isHarmful
      · right
        refine ⟨(scoreSuspicion o.text (preCheckMode pcfg st) pcfg vid i st.cache
          o.nowSus o.susReply).1,
          (planningStep vid pm pcfg st i
            (scoreSuspicion o.text (preCheckMode pcfg st) pcfg vid i st.cache
              o.nowSus o.susReply).2.1 o
            (scoreSuspicion o.text (preCheckMode pcfg st) pcfg vid i st.cache
              o.nowSus o.susReply).1.suspicious).1.length, ?_, hd⟩
        simp only [if_pos hd, addTokens_events]
      · left
        simp only [if_neg hd, addTokens_events]

theorem runSegments_events_sound (vid pm : String) (pcfg : PlannerCfg) (acfg : AnalyzeCfg) :
    ∀ (oracles : List SegOracle) (i : ℕ) (st : RunState),
    (∀ e ∈ st.events, harmEventSound e) →
    ∀ e ∈ (runSegments vid pm pcfg acfg i st oracles).events, harmEventSound e := by
  intro oracles
  induction oracles with
  | nil => intro i st h; exact h
  | cons o os ih =>
    intro i st h
    refine ih (i + 1) _ ?_
    rcases stepSegment_events_spec vid pm pcfg acfg i st o with heq | ⟨sr, n, heq, hd⟩
    · rw [heq]; exact h
    · rw [heq]
      intro e he
      rcases List.mem_append.mp he with he | he
      · exact h e he
      · rw [List.mem_singleton.mp he]
        exact mkHarmfulEvent_sound pm o sr _ n
          (llmDecide_confidence_bounds o.text o.ocrText o.captionsText o.decideReply).1
          (llmDecide_confidence_bounds o.text o.ocrText o.captionsText o.decideReply).2

/-- C7: every harmful event emitted by a run has `is_harmful = true` and an
integer confidence in `[0, 100]` obtained by truncating `100 *` the internal
decision confidence, which is clamped to `[0, 1]`; and a step of the run only
appends an event when the decision's `is_harmful` flag is true. -/
theorem analyze_segments_event_confidence
    (vid pm : String) (pcfg : PlannerCfg) (acfg : AnalyzeCfg)
    (oracles : List SegOracle) (cache0 : CacheState) :
    (∀ e ∈ (analyzeSegments vid pm pcfg acfg oracles cache0).events, harmEventSound e) ∧
    (∀ (i : ℕ) (st : RunState) (o : SegOracle),
      (stepSegment vid pm pcfg acfg i st o).1.events ≠ st.events →
      (llmDecide o.text o.ocrText o.captionsText o.decideReply).isHarmful = true) := by
  constructor
  · exact runSegments_events_sound vid pm pcfg acfg oracles 0 (initRunState acfg cache0)
      (by intro e he; simp [initRunState] at he)
  · intro i st o hne
    rcases stepSegment_events_spec vid pm pcfg acfg i st o with heq | ⟨-, -, -, hd⟩
    · exact absurd heq hne
    · exact hd

theorem analyze_segments_event_confidence_witness :
    harmEventSound
      (mkHarmfulEvent "segmentation"
        ⟨0, 1, "", false, 0, .exn "x", 0, .exn "x", false, false, 1, "", "",
          .ok true (1/2) (some ["violence"]) "expl" none⟩
        (scoreSuspicion "" "off" ⟨0.6, 50, 80, 86400, 5, 8, 120⟩ "v" 0 emptyCache 0
          (.exn "x")).1
        (llmDecide "" "" "" (.ok true (1/2) (some ["violence"]) "expl" none)) 0) :=
  (analyze_segments_event_confidence "v" "segmentation" ⟨0.6, 50, 80, 86400, 5, 8, 120⟩
    ⟨"off", 3, 5, 2⟩
    [⟨0, 1, "", false, 0, .exn "x", 0, .exn "x", false, false, 1, "", "",
      .ok true (1/2) (some ["violence"]) "expl" none⟩] emptyCache).1 _
    (by
      show _ ∈ (runSegments "v" "segmentation" _ _ 0 _ _).events
      norm_num [runSegments, stepSegment, initRunState, preCheckMode, scoreSuspicion,
        bumpCalls, postCheckMode, planningStep, addTokens, llmDecide,
        show ("off" : String) ≠ "llm" from by decide,
        show ("segmentation" : String) ≠ "llm" from by decide,
        show ("segmentation" : String) ≠ "hybrid" from by decide])

end SafeLens
